import Mathlib

/-!
# Verification of the dempy / torchkf DEM implementation

Shallow embedding of the claim-relevant parts of the repository:

* `src/dempy/dem.py` — the DEM inversion engine (`DEMInversion.run`,
  `DEMInversion.generate`): outer E-step loop control (accept/reject,
  temperature annealing, free-energy traces), up-front dimension checks,
  parameter-space reduction, and the forward simulator.
* `src/torchkf/dem_de.py` — the prediction-error engine
  (`dem_eval_err_diff`).
* `src/torchkf/dem_hgm.py` — hierarchy preparation (`prepare_models`).

Machine floats are modelled by an abstract commutative ring (instantiated
at `ℚ` for executable witnesses and at `ℝ` where `np.log`/`np.exp` matter);
`np.nan` sentinels are modelled by `Option`; Python exceptions by
`Except String`.  Numpy row matrices are lists of rows with explicit
dimensions carried in a structure so that zero-row matrices keep their
column counts (as numpy shape tuples do).
-/

namespace Dempy

/-! ## Vectors and matrices

Vectors are lists of ring elements (numpy 1-d arrays).  Matrices carry
their shape explicitly together with an entry function, mirroring the
numpy convention that a `(0, k)` array still has `k` columns. -/

variable {R : Type} [CommRing R]

/-- Pointwise sum of two vectors (numpy `+` on equal-shape 1-d arrays). -/
def vadd (a b : List R) : List R := List.zipWith (· + ·) a b

/-- Pointwise difference of two vectors (numpy `-`). -/
def vsub (a b : List R) : List R := List.zipWith (· - ·) a b

/-- A dense matrix with explicit shape: `rows × cols`, entries given by a
total function (out-of-range entries are irrelevant). -/
structure Mtx (R : Type) where
  rows : ℕ
  cols : ℕ
  entry : ℕ → ℕ → R

/-- Matrix–vector product `A @ v`; the result length is `A.rows`, and
missing vector entries read as `0` (shapes agree in all checked code paths). -/
def matVec (A : Mtx R) (v : List R) : List R :=
  (List.range A.rows).map fun i =>
    ((List.range A.cols).map fun j => A.entry i j * v.getD j 0).sum

/-- Zero matrix `np.zeros((r, c))`. -/
def zerosM (r c : ℕ) : Mtx R := ⟨r, c, fun _ _ => 0⟩

/-- Rectangular identity `np.eye(r, c)`. -/
def eyeM (r c : ℕ) : Mtx R := ⟨r, c, fun i j => if i = j then 1 else 0⟩

/-- `-np.eye(m)`. -/
def negEyeM (m : ℕ) : Mtx R := ⟨m, m, fun i j => if i = j then -1 else 0⟩

/-- Horizontal concatenation of two matrices with the same number of rows. -/
def hcatM (A B : Mtx R) : Mtx R :=
  ⟨A.rows, A.cols + B.cols, fun i j => if j < A.cols then A.entry i j else B.entry i (j - A.cols)⟩

/-- Vertical concatenation of two matrices with the same number of columns. -/
def vcatM (A B : Mtx R) : Mtx R :=
  ⟨A.rows + B.rows, A.cols, fun i j => if i < A.rows then A.entry i j else B.entry (i - A.rows) j⟩

/-- `scipy.linalg.block_diag` over a list of blocks. -/
def blockDiagM : List (Mtx R) → Mtx R
  | [] => zerosM 0 0
  | A :: rest =>
    let B := blockDiagM rest
    ⟨A.rows + B.rows, A.cols + B.cols, fun i j =>
      if i < A.rows then (if j < A.cols then A.entry i j else 0)
      else if j < A.cols then 0 else B.entry (i - A.rows) (j - A.cols)⟩

/-- Kronecker product `np.kron`. -/
def kronM (A B : Mtx R) : Mtx R :=
  ⟨A.rows * B.rows, A.cols * B.cols, fun i j =>
    A.entry (i / B.rows) (j / B.cols) * B.entry (i % B.rows) (j % B.cols)⟩

/-- Split a vector into consecutive slices of the given lengths (the running
`nxi`/`nvi` offset loops of the Python code). -/
def slices : List ℕ → List R → List (List R)
  | [], _ => []
  | d :: ds, v => v.take d :: slices ds (v.drop d)

/-! ## `dem_eval_err_diff` — prediction-error engine (src/torchkf/dem_de.py)

The engine's first return value `E` (the generalized prediction-error
vector) is modelled in full; the Jacobian bundle `dE` (second return
value) is referenced by no claim and is not modelled.  The per-level
reparameterized derivative callables `df_qup`/`dg_qup` (the engine's
cached-derivative branch) are carried on each level; the Python callables
additionally receive the constant per-level basis `qp.u[i]` and prior
expectation `pE`, which the modelled closures absorb.  The numeric
fallback `compute_df_d2f` lives in the absent module `dem_dx` and is not
exercised by this branch. -/

/-- A first-derivative bundle: entry functions of the `dx`, `dv`, `dp`
blocks (their shapes are attached at use sites from the level's declared
dimensions, as numpy arrays carry shapes). -/
structure DBundle (R : Type) where
  dx : ℕ → ℕ → R
  dv : ℕ → ℕ → R
  dp : ℕ → ℕ → R

/-- The all-zero derivative bundle (used as an out-of-range default). -/
def DBundle.zero : DBundle R := ⟨fun _ _ => 0, fun _ _ => 0, fun _ _ => 0⟩

/-- One prepared hierarchy level as consumed by `dem_eval_err_diff`:
dimensions `n`/`m`/`l`/`p`, the state map `f`, observation map `g`, prior
parameter expectation `pE`, and the compiled derivative bundles. -/
structure DLevel (R : Type) where
  n : ℕ
  m : ℕ
  l : ℕ
  p : ℕ
  f : List R → List R → List R → List R
  g : List R → List R → List R → List R
  pE : List R
  df_qup : List R → List R → List R → DBundle R
  dg_qup : List R → List R → List R → DBundle R

/-- Current generalized-state estimate `qu` (fields indexed by embedding
order). -/
structure QU (R : Type) where
  x : ℕ → List R
  v : ℕ → List R
  y : ℕ → List R
  u : ℕ → List R

/-- Current parameter deviation `qp`: per-level reduced bases `u` and
reduced estimates `p`. -/
structure QP (R : Type) where
  u : List (Mtx R)
  p : List (List R)

/-- `ne = sum(m.l for m in M)`. -/
def neOf (M : List (DLevel R)) : ℕ := (M.map DLevel.l).sum

/-- `nv = sum(m.m for m in M)`. -/
def nvOf (M : List (DLevel R)) : ℕ := (M.map DLevel.m).sum

/-- `nx = sum(m.n for m in M)`. -/
def nxOf (M : List (DLevel R)) : ℕ := (M.map DLevel.n).sum

/-- `ny = M[0].l`. -/
def nyOf (M : List (DLevel R)) : ℕ := (M.map DLevel.l).headD 0

/-- `nc = M[-1].l`. -/
def ncOf (M : List (DLevel R)) : ℕ := (M.map DLevel.l).getLastD 0

/-- The per-level evaluation loop of `dem_eval_err_diff`: slice the
order-0 states and causes by the running offsets, build
`p = pE + qp.u[i] @ qp.p[i]`, and evaluate `f` and `g`; returns the lists
of per-level flow and output vectors (applied to the non-terminal
levels). -/
def evalFG : List (DLevel R) → List R → List R → List (Mtx R) → List (List R) →
    List (List R) × List (List R)
  | [], _, _, _, _ => ([], [])
  | lvl :: rest, x, v, Us, qs =>
    let xi := x.take lvl.n
    let vi := v.take lvl.m
    let p := vadd lvl.pE (matVec (Us.headD (zerosM 0 0)) (qs.headD []))
    let fg := evalFG rest (x.drop lvl.n) (v.drop lvl.m) Us.tail qs.tail
    (lvl.f xi vi p :: fg.1, lvl.g xi vi p :: fg.2)

/-- The per-level derivative loop of `dem_eval_err_diff` (cached-bundle
branch): evaluate `df_qup`/`dg_qup` at the sliced order-0 state, cause
and reduced parameter estimate of each non-terminal level. -/
def evalBundles : List (DLevel R) → List R → List R → List (List R) →
    List (DBundle R × DBundle R)
  | [], _, _, _ => []
  | lvl :: rest, x, v, qs =>
    (lvl.df_qup (x.take lvl.n) (v.take lvl.m) (qs.headD []),
      lvl.dg_qup (x.take lvl.n) (v.take lvl.m) (qs.headD [])) ::
      evalBundles rest (x.drop lvl.n) (v.drop lvl.m) qs.tail

/-- Fold a row of blocks of common height `h` into one matrix. -/
def hcatList (h : ℕ) (cells : List (Mtx R)) : Mtx R :=
  cells.foldl hcatM (zerosM h 0)

/-- Stack a list of row-blocks of common width `w` into one matrix. -/
def vcatList (w : ℕ) (rowsL : List (Mtx R)) : Mtx R :=
  rowsL.foldl vcatM (zerosM 0 w)

/-- The manually assembled `dgdv` block matrix: level `i`'s causes appear
at level `i` through `dg[i].dv` and at level `i+1` through `-I`
(`dem_eval_err_diff`, the `dgdv = cell(nl, nl-1)` block). -/
def dgdvM (M : List (DLevel R)) (dgs : List (DBundle R)) : Mtx R :=
  let ls := M.map DLevel.l
  let ms := (M.dropLast).map DLevel.m
  vcatList ms.sum ((List.range M.length).map fun i =>
    hcatList (ls.getD i 0) ((List.range (M.length - 1)).map fun j =>
      if i = j then ⟨ls.getD i 0, ms.getD j 0, (dgs.getD j DBundle.zero).dv⟩
      else if i = j + 1 then negEyeM (ms.getD j 0)
      else zerosM (ls.getD i 0) (ms.getD j 0)))

/-- `np.zeros_like` on a vector. -/
def zerosLike (v : List R) : List R := List.replicate v.length 0

/-- The stacked flow vector `f` of `dem_eval_err_diff` (per-level state
maps at the order-0 states/causes with parameters `pE + U @ qp.p`). -/
def fStack (M : List (DLevel R)) (qu : QU R) (qp : QP R) : List R :=
  (evalFG M.dropLast (qu.x 0) (qu.v 0) qp.u qp.p).1.flatten

/-- The stacked output vector `g` of `dem_eval_err_diff`. -/
def gStack (M : List (DLevel R)) (qu : QU R) (qp : QP R) : List R :=
  (evalFG M.dropLast (qu.x 0) (qu.v 0) qp.u qp.p).2.flatten

/-- `df.dx` of `dem_eval_err_diff`: block-diagonal stack of the
per-level `df.dx` derivative blocks (shape `(nx, nx)`). -/
def dfdxM (M : List (DLevel R)) (qu : QU R) (qp : QP R) : Mtx R :=
  blockDiagM (List.zipWith (fun (lvl : DLevel R) b => Mtx.mk lvl.n lvl.n b.1.dx)
    M.dropLast (evalBundles M.dropLast (qu.x 0) (qu.v 0) qp.p))

/-- `df.dv` of `dem_eval_err_diff` (shape `(nx, nv)`). -/
def dfdvM (M : List (DLevel R)) (qu : QU R) (qp : QP R) : Mtx R :=
  blockDiagM (List.zipWith (fun (lvl : DLevel R) b => Mtx.mk lvl.n lvl.m b.1.dv)
    M.dropLast (evalBundles M.dropLast (qu.x 0) (qu.v 0) qp.p))

/-- `dg.dx` of `dem_eval_err_diff`: block-diagonal per-level `dg.dx`
blocks with `nc` zero rows appended to accommodate the highest
hierarchical level (shape `(ne, nx)`). -/
def dgdxM (M : List (DLevel R)) (qu : QU R) (qp : QP R) : Mtx R :=
  vcatM (blockDiagM (List.zipWith (fun (lvl : DLevel R) b => Mtx.mk lvl.l lvl.n b.2.dx)
    M.dropLast (evalBundles M.dropLast (qu.x 0) (qu.v 0) qp.p)))
    (zerosM (ncOf M) (nxOf M))

/-- `dg.dv` of `dem_eval_err_diff`: the manually assembled bidiagonal
block matrix over the evaluated observation bundles. -/
def dgdvFullM (M : List (DLevel R)) (qu : QU R) (qp : QP R) : Mtx R :=
  dgdvM M ((evalBundles M.dropLast (qu.x 0) (qu.v 0) qp.p).map Prod.snd)

/-- `de.dc` of `dem_eval_err_diff`:
`np.diag(-np.ones(max(ne, nc) - (nc - ne)), nc - ne)[:ne, :nc]`, the
shift-identity linking observed input orders into the causal-error
channel. -/
def dedcM (ne nc : ℕ) : Mtx R :=
  ⟨ne, nc, fun r c => if (c : ℤ) - (r : ℤ) = (nc : ℤ) - (ne : ℤ) then -1 else 0⟩

/-- A causal prediction-error block of order `i ≥ 1`:
`de.dy @ y[i] + de.dc @ u[i] - dg.dx @ x[i] - dg.dv @ v[i]`. -/
def EvBlock (M : List (DLevel R)) (qu : QU R) (qp : QP R) (i : ℕ) : List R :=
  vsub (vsub (vadd (matVec (eyeM (neOf M) (nyOf M)) (qu.y i))
      (matVec (dedcM (neOf M) (ncOf M)) (qu.u i)))
    (matVec (dgdxM M qu qp) (qu.x i)))
    (matVec (dgdvFullM M qu qp) (qu.v i))

/-- A state prediction-error block of order `i ≥ 1`:
`x[i+1] - df.dx @ x[i] - df.dv @ v[i]`. -/
def ExBlock (M : List (DLevel R)) (qu : QU R) (qp : QP R) (i : ℕ) : List R :=
  vsub (vsub (qu.x (i + 1)) (matVec (dfdxM M qu qp) (qu.x i)))
    (matVec (dfdvM M qu qp) (qu.v i))

/-- The generalized prediction-error vector `E` of `dem_eval_err_diff`
(src/torchkf/dem_de.py): order-0 causal error `[y0, v0] - [g, u0]`,
higher-order causal errors through the generalized derivative operators,
order-0 state error `x1 - f`, higher-order state errors, and the final
`np.zeros_like(Exi)` block.  When the state-error loop body never runs
(`n < 3`) the Python name `Exi` is unbound and the source raises
`NameError`; this is modelled as the error return.  The argument `d`
(cause embedding order) only enters the Jacobian outputs `dE`, which no
claim references and which are not modelled. -/
def dem_eval_err_diff (n d : ℕ) (M : List (DLevel R)) (qu : QU R) (qp : QP R) :
    Except String (List R) :=
  let _ := d
  let Ev := vsub (qu.y 0 ++ qu.v 0) (gStack M qu qp ++ qu.u 0) ::
    (List.range' 1 (n - 1)).map (EvBlock M qu qp)
  let ExMid := (List.range' 1 (n - 2)).map (ExBlock M qu qp)
  match ExMid.getLast? with
  | none => .error "NameError: name 'Exi' is not defined"
  | some ExLast =>
    .ok (Ev.flatten ++
      ((vsub (qu.x 1) (fStack M qu qp) :: ExMid) ++ [zerosLike ExLast]).flatten)

/-! ## `prepare_models` — hierarchy preparation (src/torchkf/dem_hgm.py)

The claim-relevant passes are modelled: supra-ordinate completion,
static-level defaulting, parameter-prior normalization, sign-constraint
encoding, the input back-propagation (`get inputs`) and the descending
chain-consistency check (`check functions`).  Symbolic map declarations
(`fsymb`/`gsymb`) compile to plain callables before these passes and are
represented by the callables themselves; derivative compilation (which
only populates the `df`/`d2f`/`dg`/`d2g` caches through the absent
`dem_dx` module) and the trailing `xP`/`vP` and noise-model normalization
passes (which touch only fields no claim references) are omitted.
`np.log` is abstracted as the function argument `rlog` so that the
development stays executable away from the one claim that needs `ℝ`. -/

/-- A per-parameter sign constraint entry. -/
inductive Cstr
  | positive
  | negative
  | unconstrained
deriving DecidableEq

/-- The user-supplied form of the parameter prior covariance `pC`
(scalar variance, vector of variances, or full matrix). -/
inductive PCIn (R : Type)
  | scalar (c : R)
  | vector (v : List R)
  | matrix (m : List (List R))

/-- A user-constructed model-level descriptor (`GaussianModel`): all
fields optional, `None` by default. -/
structure RawLevel (R : Type) where
  f : Option (List R → List R → List R → List R) := none
  g : Option (List R → List R → List R → List R) := none
  m : Option ℕ := none
  n : Option ℕ := none
  l : Option ℕ := none
  x : Option (List R) := none
  v : Option (List R) := none
  pE : Option (List R) := none
  pC : Option (PCIn R) := none
  constraints : Option (List Cstr) := none

/-- A level after the first per-level normalization loop of
`prepare_models` (priors resolved, dimensions still partly declared). -/
structure MidLevel (R : Type) where
  f : List R → List R → List R → List R
  g : Option (List R → List R → List R → List R)
  m : Option ℕ
  n : Option ℕ
  l : Option ℕ
  x : Option (List R)
  v : Option (List R)
  pE : List R
  p : ℕ
  nP : ℕ
  pC : List (List R)
  constraints : Option (List Cstr)

/-- A fully prepared level (all dimensions resolved). -/
structure PLevel (R : Type) where
  f : List R → List R → List R → List R
  g : Option (List R → List R → List R → List R)
  m : ℕ
  n : ℕ
  l : ℕ
  p : ℕ
  nP : ℕ
  x : List R
  v : List R
  pE : List R
  pC : List (List R)
  constraints : Option (List Cstr)

/-- Default prepared level (out-of-range indexing fallback). -/
def PLevel.dflt : PLevel R :=
  { f := fun _ _ _ => [], g := none, m := 0, n := 0, l := 0, p := 0, nP := 0,
    x := [], v := [], pE := [], pC := [], constraints := none }

/-- Replace the last element of a list (`M[-1] = ...`). -/
def setLastRaw (M : List (RawLevel R)) (h : RawLevel R → RawLevel R) : List (RawLevel R) :=
  match M.getLast? with
  | none => M
  | some lv => M.dropLast ++ [h lv]

/-- Sign-constraint encoding (`prepare_models`, the
`M[i].constraints is not None` block): constrained entries of `pE` move
to the log domain, the rows of `pC` selected by the same boolean mask are
mapped through `log(1 + ·)` (numpy row selection by a length-`p` mask on
the `(p, p)` array), and a mask-size mismatch is a configuration
error. -/
def applyConstraints (rlog : R → R) (cs : List Cstr) (pE : List R) (pC : List (List R)) :
    Except String (List R × List (List R)) :=
  if cs.length ≠ pE.length then
    .error "The size of constraints does not match that of parameter expectations."
  else
    .ok (List.zipWith (fun c e => match c with
          | Cstr.positive => rlog (1 + e)
          | Cstr.negative => rlog (1 - e)
          | Cstr.unconstrained => e) cs pE,
        List.zipWith (fun c row => match c with
          | Cstr.positive => row.map fun a => rlog (1 + a)
          | Cstr.negative => row.map fun a => rlog (1 + a)
          | Cstr.unconstrained => row) cs pC)

/-- The first per-level loop of `prepare_models`: hidden-state
specification check, static-level defaulting, `pE`/`pC` normalization
and shape check, and sign-constraint encoding. -/
def prepLevel (rlog : R → R) (lv : RawLevel R) : Except String (MidLevel R) :=
  if lv.f.isSome && lv.n.isNone && lv.x.isNone then
    .error "please specify hidden states or their number"
  else
    let fxn : (List R → List R → List R → List R) × Option (List R) × Option ℕ :=
      match lv.f with
      | some f => (f, lv.x, lv.n)
      | none => (fun _ _ _ => ([] : List R), some [], some 0)
    let pE := lv.pE.getD []
    let p := pE.length
    let pC0 : List (List R) :=
      match lv.pC with
      | none => List.replicate p (List.replicate p 0)
      | some (.scalar c) =>
        (List.range p).map fun i => (List.range p).map fun j => if i = j then c else 0
      | some (.vector w) =>
        (List.range w.length).map fun i =>
          (List.range w.length).map fun j => if i = j then w.getD i 0 else 0
      | some (.matrix A) => A
    if pC0.length ≠ p ∨ (pC0.headD []).length ≠ p then
      .error "Wrong shape for model pC."
    else
      match lv.constraints with
      | none =>
        .ok { f := fxn.1, g := lv.g, m := lv.m, n := fxn.2.2, l := lv.l,
              x := fxn.2.1, v := lv.v, pE := pE, p := p, nP := p, pC := pC0,
              constraints := lv.constraints }
      | some cs => do
        let epc ← applyConstraints rlog cs pE pC0
        .ok { f := fxn.1, g := lv.g, m := lv.m, n := fxn.2.2, l := lv.l,
              x := fxn.2.1, v := lv.v, pE := epc.1, p := p, nP := p, pC := epc.2,
              constraints := lv.constraints }

/-- The descending `check functions` loop of `prepare_models`, applied to
the non-terminal levels listed from coarsest to finest, threading the
running cause vector `v` downward: default the initial state, probe the
state map (output shape must match `x`), reconcile `m` with the incoming
cause, probe the observation map to produce the next level's cause, and
reconcile `l`. -/
def checkDown : List (MidLevel R) → List R → Except String (List (PLevel R))
  | [], _ => .ok []
  | lv :: rest, v => do
    let x0 := match lv.x with
      | none => List.replicate (lv.n.getD 0) (0 : R)
      | some xv => xv
    let x := if x0.isEmpty ∧ 0 < lv.n.getD 0 then List.replicate (lv.n.getD 0) (0 : R) else x0
    if (lv.f x v lv.pE).length ≠ x.length then
      .error "Wrong shape for output of model f."
    else
      match lv.g with
      | none => .error "Not callable function for model g!"
      | some gf => do
        let vout := gf x v lv.pE
        let out ← checkDown rest vout
        .ok ({ f := lv.f, g := some gf, m := v.length, n := x.length,
               l := vout.length, p := lv.p, nP := lv.nP, x := x, v := vout,
               pE := lv.pE, pC := lv.pC, constraints := lv.constraints } :: out)

/-- Effectful map over a list in the `Except` monad, stopping at the
first error (the sequential per-level loop of `prepare_models`). -/
def mapE {α β ε : Type} (f : α → Except ε β) : List α → Except ε (List β)
  | [] => .ok []
  | a :: as => do
    let b ← f a
    let bs ← mapE f as
    .ok (b :: bs)

/-- A default mid-level record (used only as an out-of-range fallback of
list indexing, mirroring numpy/Python index arithmetic). -/
def MidLevel.dflt : MidLevel R :=
  { f := fun _ _ _ => [], g := none, m := none, n := none, l := none,
    x := none, v := none, pE := [], p := 0, nP := 0, pC := [], constraints := none }

/-- `prepare_models` (src/torchkf/dem_hgm.py): supra-ordinate completion
(append a flat-prior terminal level when the last supplied level still
declares an observation map, then force `n = m = 0` on the terminal
level; `p` is recomputed from `pE` for every level), the per-level
normalization loop, the `get inputs` back-propagation fixing the terminal
level's `l` and `v`, and the descending chain-consistency check. -/
def prepare_models (rlog : R → R) (models : List (RawLevel R)) :
    Except String (List (PLevel R)) :=
  match models.getLast? with
  | none => .error "IndexError: empty model list"
  | some lastRaw =>
    let M0 := if lastRaw.g.isSome then models ++ [{ l := lastRaw.m }] else models
    let M0 := setLastRaw M0 fun lv => { lv with n := some 0, m := some 0 }
    do
      let M1 ← mapE (prepLevel rlog) M0
      match M1.getLast? with
      | none => .error "IndexError: empty model list"
      | some top =>
        let v0 := top.v.getD []
        let v1 := if v0.isEmpty then
            match (M1.getD (M1.length - 2) MidLevel.dflt).m with
            | some mv => List.replicate mv (0 : R)
            | none => match top.l with
              | some lv => List.replicate lv (0 : R)
              | none => []
          else v0
        let processed ← checkDown M1.dropLast.reverse v1
        let topP : PLevel R :=
          { f := top.f, g := top.g, m := top.m.getD 0, n := top.n.getD 0,
            l := v1.length, p := top.p, nP := top.nP, x := top.x.getD [],
            v := v1, pE := top.pE, pC := top.pC, constraints := top.constraints }
        .ok (processed.reverse ++ [topP])

/-! ## Parameter-space reduction in `run` (src/dempy/dem.py, `run`,
the `priors on parameters` block)

Per non-terminal level, `run` performs an eigenvector reduction of the
parameter prior covariance — `Ui, si, Vhi = np.linalg.svd(M[i].pC)`,
retaining the columns of `Ui` at nonzero singular values — and then
writes the retained direction count back into the shared model:
`M[i].p = Ui.shape[1]`.  The SVD is a library routine; its per-level
output `(U, s)` is an input here (for the zero matrix every valid SVD
has all-zero singular values).  The function returns the hierarchy as it
stands after this block of `run`, making the in-place mutation of the
shared model-level descriptors explicit. -/

/-- The per-level body of the reduction loop: `M[i].p = Ui.shape[1]`
after discarding zero-singular-value columns. -/
def reduceLevelParams [DecidableEq R] (lvl : PLevel R) (svd : Mtx R × List R) : PLevel R :=
  { lvl with p := (svd.2.filter fun s => s ≠ 0).length }

/-- The model list as left by `run`'s parameter-reduction loop
(`for i in range(nl - 1)`): every non-terminal level's `p` is
overwritten, the terminal level is untouched. -/
def runReducedModels [DecidableEq R] (Ms : List (PLevel R)) (svds : List (Mtx R × List R)) :
    List (PLevel R) :=
  match Ms.getLast? with
  | none => Ms
  | some top => (List.zipWith reduceLevelParams Ms.dropLast svds) ++ [top]

/-! ## `DEMInversion.generate` — forward simulator (src/dempy/dem.py, `generate`)

The per-level innovations are drawn by `dem_z` (an absent module) and
embedded into generalized coordinates before the timestep loop; the
embedded innovation arrays enter here as the inputs `Z`/`W`
(`Z t` lists, per level, the `[order, dim]` slice at timestep `t`; an
`extra_input` is folded into the top level's innovation series before
embedding, line `z[-1] = u + z[-1]`, and is therefore part of `Z`).  The
local-linearization integrator `compute_dx` (also an absent module,
spec §4.4) enters only through the end-of-step state advance and is the
abstract argument `cdx`, universally quantified in every theorem. -/

/-- A two-dimensional `[order, dim]` slab (one timestep of a
generalized-coordinate array). -/
abbrev Vec2 (R : Type) := List (List R)

/-- One hierarchy level as consumed by `generate`: dimensions, prepared
initial state/cause, prior parameter expectation, the maps and their
compiled first-derivative bundles. -/
structure GLevel (R : Type) where
  n : ℕ
  l : ℕ
  x : List R
  v : List R
  pE : List R
  f : List R → List R → List R → List R
  g : List R → List R → List R → List R
  df : List R → List R → List R → DBundle R
  dg : List R → List R → List R → DBundle R

/-- Default level (out-of-range indexing fallback). -/
def GLevel.dflt : GLevel R :=
  { n := 0, l := 0, x := [], v := [], pE := [],
    f := fun _ _ _ => [], g := fun _ _ _ => [],
    df := fun _ _ _ => DBundle.zero, dg := fun _ _ _ => DBundle.zero }

/-- The descending order-0 cause update of `generate`'s timestep loop
(`vi[-1][0] = zi[-1][0]` then, from coarsest to finest non-terminal
level, `vi[i][0] = gi + zi[i][0]` with `gi = M[i].g(xi[i][0],
vi[i+1][0], pE)`): given the order-0 state and innovation slices of the
non-terminal levels and the already-assigned top cause, returns the new
order-0 cause slices of the non-terminal levels. -/
def updCauses : List (GLevel R) → List (List R) → List (List R) → List R → List (List R)
  | [], _, _, _ => []
  | lvl :: rest, xs, zs, vtop =>
    let out := updCauses rest xs.tail zs.tail vtop
    let vnext := out.headD vtop
    vadd (lvl.g (xs.headD []) vnext lvl.pE) (zs.headD []) :: out

/-- `np.diag(np.ones(n-1), 1)`: the generalized-coordinate shift. -/
def shiftM (n : ℕ) : Mtx R := ⟨n, n, fun i j => if j = i + 1 then 1 else 0⟩

/-- Assemble a block grid with the given row/column block dimensions
(`block_matrix` over a fully populated `cell` grid; absent entries are
zero blocks of the inferred size). -/
def gridM (rdims cdims : List ℕ) (cell : ℕ → ℕ → Mtx R) : Mtx R :=
  vcatList cdims.sum ((List.range rdims.length).map fun i =>
    hcatList (rdims.getD i 0) ((List.range cdims.length).map fun j => cell i j))

/-- Split a flat vector into a `[rows, cols]` slab (numpy `reshape`). -/
def unflatten (rows cols : ℕ) (u : List R) : Vec2 R :=
  (List.range rows).map fun i => (u.drop (i * cols)).take cols

/-- The body of `generate`'s higher-order propagation loop
(`for i in range(1, n-1)`): `v[i] = dgdx @ x[i] + dgdv @ v[i] + z[i]`
then `x[i+1] = dfdx @ x[i] + dfdv @ v[i] + w[i]` (the second statement
reads the freshly assigned `v[i]`). -/
def genHigherStep (dgdx dgdv dfdx dfdv : Mtx R) (zfull wfull : Vec2 R)
    (p : Vec2 R × Vec2 R) (i : ℕ) : Vec2 R × Vec2 R :=
  let v' := p.1.set i (vadd (vadd (matVec dgdx (p.2.getD i []))
    (matVec dgdv (p.1.getD i []))) (zfull.getD i []))
  let x' := p.2.set (i + 1) (vadd (vadd (matVec dfdx (p.2.getD i []))
    (matVec dfdv (v'.getD i []))) (wfull.getD i []))
  (v', x')

/-- Result of one `generate` timestep: the recorded realizations
`V[t]`/`X[t]` and the integrated next state `(xt, vt)`. -/
structure GenOut (R : Type) where
  V : Vec2 R
  X : Vec2 R
  xn : Vec2 R
  vn : Vec2 R

/-- One timestep of `generate`'s loop: unpack the per-level slices,
update the order-0 causes from coarsest to finest, write
`x[1] = f + w[0]` (the flow list is built by descending-order `append`,
hence stacked coarsest-first, exactly as in the source), propagate the
higher generalized orders through the block Jacobians, record the
realization, and advance the full augmented state one step `dt` through
the integrator. -/
def genStep (cdx : List R → Mtx R → R → List R) (dt : R) (n : ℕ)
    (Ms : List (GLevel R)) (Z W : ℕ → List (Vec2 R)) (xt vt : Vec2 R) (t : ℕ) :
    GenOut R :=
  let nl := Ms.length
  let ns := Ms.map GLevel.n
  let ls := Ms.map GLevel.l
  let nx := ns.sum
  let nv := ls.sum
  let zl := Z t
  let wl := W t
  let zfull : Vec2 R := (List.range n).map fun o => (zl.map fun z => z.getD o []).flatten
  let wfull : Vec2 R := (List.range n).map fun o => (wl.map fun w => w.getD o []).flatten
  let xs0 := slices ns (xt.headD [])
  let zs0 := zl.map fun z => z.getD 0 []
  let ztop0 := zs0.getLastD []
  let newCauses := updCauses Ms.dropLast xs0 zs0 ztop0
  let vfull := newCauses ++ [ztop0]
  let flowsAsc := (List.range (nl - 1)).map fun i =>
    (Ms.getD i GLevel.dflt).f (xs0.getD i []) (vfull.getD (i + 1) [])
      (Ms.getD i GLevel.dflt).pE
  let f := flowsAsc.reverse.flatten
  let dfB := fun i => (Ms.getD i GLevel.dflt).df (xs0.getD i [])
    (vfull.getD (i + 1) []) (Ms.getD i GLevel.dflt).pE
  let dgB := fun i => (Ms.getD i GLevel.dflt).dg (xs0.getD i [])
    (vfull.getD (i + 1) []) (Ms.getD i GLevel.dflt).pE
  let dfdx := gridM ns ns fun i j =>
    if i = j ∧ i < nl - 1 then ⟨ns.getD i 0, ns.getD j 0, (dfB i).dx⟩
    else zerosM (ns.getD i 0) (ns.getD j 0)
  let dfdv := gridM ns ls fun i j =>
    if j = i + 1 ∧ i < nl - 1 then ⟨ns.getD i 0, ls.getD j 0, (dfB i).dv⟩
    else zerosM (ns.getD i 0) (ls.getD j 0)
  let dgdx := gridM ls ns fun i j =>
    if i = j ∧ i < nl - 1 then ⟨ls.getD i 0, ns.getD j 0, (dgB i).dx⟩
    else zerosM (ls.getD i 0) (ns.getD j 0)
  let dgdv := gridM ls ls fun i j =>
    if j = i + 1 ∧ i < nl - 1 then ⟨ls.getD i 0, ls.getD j 0, (dgB i).dv⟩
    else zerosM (ls.getD i 0) (ls.getD j 0)
  let vA := vt.set 0 vfull.flatten
  let xA := xt.set 1 (vadd f (wfull.getD 0 []))
  let vx := (List.range' 1 (n - 2)).foldl
    (genHigherStep dgdx dgdv dfdx dfdv zfull wfull) (vA, xA)
  let Dx := kronM (shiftM n) (eyeM nx nx)
  let Dv := kronM (shiftM n) (eyeM nv nv)
  let D := blockDiagM [Dv, Dx, Dv, Dx]
  let dfdw := kronM (eyeM n n) (eyeM nx nx)
  let dgdvK := kronM (shiftM n) dgdv
  let dgdxK := kronM (shiftM n) dgdx
  let dfdvK := kronM (eyeM n n) dfdv
  let dfdxK := kronM (eyeM n n) dfdx
  let bdims := [n * nv, n * nx, n * nv, n * nx]
  let J := gridM bdims bdims fun i j =>
    if i = 0 ∧ j = 0 then dgdvK else if i = 0 ∧ j = 1 then dgdxK
    else if i = 0 ∧ j = 2 then Dv else if i = 1 ∧ j = 0 then dfdvK
    else if i = 1 ∧ j = 1 then dfdxK else if i = 1 ∧ j = 3 then dfdw
    else if i = 2 ∧ j = 2 then Dv else if i = 3 ∧ j = 3 then Dx
    else zerosM (bdims.getD i 0) (bdims.getD j 0)
  let u := vx.1.flatten ++ vx.2.flatten ++ zfull.flatten ++ wfull.flatten
  let du := cdx (matVec D u) J dt
  let u' := vadd u du
  { V := vx.1, X := vx.2,
    vn := unflatten n nv u', xn := unflatten n nx (u'.drop (n * nv)) }

/-- The initial generalized state of `generate`:
`X[0, 0] = np.concatenate([m.x for m in M if m.n > 0])` and zeros at the
higher orders. -/
def genInitX (n : ℕ) (Ms : List (GLevel R)) : Vec2 R :=
  (List.replicate n (List.replicate (Ms.map GLevel.n).sum (0 : R))).set 0
    (((Ms.filter fun m => 0 < m.n).map GLevel.x).flatten)

/-- The initial generalized cause of `generate`:
`V[0, 0] = np.concatenate([m.v for m in M if m.l > 0])`. -/
def genInitV (n : ℕ) (Ms : List (GLevel R)) : Vec2 R :=
  (List.replicate n (List.replicate (Ms.map GLevel.l).sum (0 : R))).set 0
    (((Ms.filter fun m => 0 < m.l).map GLevel.v).flatten)

/-- The `(xt, vt)` state of `generate` as the timestep loop reaches
timestep `t`. -/
def genStates (cdx : List R → Mtx R → R → List R) (dt : R) (n : ℕ)
    (Ms : List (GLevel R)) (Z W : ℕ → List (Vec2 R)) : ℕ → Vec2 R × Vec2 R
  | 0 => (genInitX n Ms, genInitV n Ms)
  | t + 1 =>
    let s := genStates cdx dt n Ms Z W t
    let o := genStep cdx dt n Ms Z W s.1 s.2 t
    (o.xn, o.vn)

/-- `DEMInversion.generate`: the recorded cause and state trajectories
`results.v` and `results.x` over `nT` timesteps (the returned `z`/`w`
are the inputs `Z`/`W` themselves). -/
def generate (cdx : List R → Mtx R → R → List R) (dt : R) (n : ℕ)
    (Ms : List (GLevel R)) (Z W : ℕ → List (Vec2 R)) (nT : ℕ) :
    List (Vec2 R) × List (Vec2 R) :=
  ((List.range nT).map fun t =>
      let s := genStates cdx dt n Ms Z W t
      (genStep cdx dt n Ms Z W s.1 s.2 t).V,
   (List.range nT).map fun t =>
      let s := genStates cdx dt n Ms Z W t
      (genStep cdx dt n Ms Z W s.1 s.2 t).X)

/-! ## `DEMInversion.run` — outer E-step loop (src/dempy/dem.py, `run`)

The outer loop's control flow is modelled exactly: the accept/reject
branch on the candidate free energy, the `te`/`tm` temperature schedules,
the checkpoint record `B`, the forcing of `nM` to `1` on rejection, the
free-energy/free-action traces `F`/`A` and the two loop-exit tests.
The large linear-algebra bodies that produce the per-iteration free
energy `Li`, free action `Ai`, the M-step update of `qh`, the accepted
E-step update of `qp` and the `dp`/`mh` convergence test outcome are
data-dependent computations whose results enter this control flow only
as opaque values; they are abstracted as oracle functions of the
iteration index, universally quantified in every theorem, and the
conditional-moment records `qp`, `qh`, `pp` are abstract types
`Th`, `Hh`, `Pp`.  `np.nan` trace entries are `none`; the float
`-np.inf` initial value of `Fi` is `(⊥ : WithBot ℚ)`. -/

/-- Loop state of `run`'s outer E-step iteration. -/
structure OuterState (Th Hh Pp : Type) where
  Fi : WithBot ℚ
  te : ℚ
  tm : ℚ
  nM : ℕ
  qp : Th
  qh : Hh
  pp : Pp
  B : Th × Hh × Pp
  F : List (Option (WithBot ℚ))
  A : List (Option ℚ)

/-- Oracles abstracting the data-dependent computations of one outer
iteration (see the section comment above). -/
structure Oracles (Th Hh Pp : Type) where
  Li : ℕ → ℚ
  Ai : ℕ → ℚ
  mstep : ℕ → ℕ → Hh → Hh
  upd : ℕ → Th → Th
  conv : ℕ → Bool

variable {Th Hh Pp : Type}

/-- The acceptance test of the outer loop: `if Li > Fi or iE < 1`
(src/dempy/dem.py, `run`, line 657). -/
def acceptCond (Li : ℚ) (Fi : WithBot ℚ) (iE : ℕ) : Bool :=
  decide (Fi < (Li : WithBot ℚ)) || decide (iE < 1)

/-- One outer E-step iteration of `run` (D-step sweep and M-step folded
into the oracles), ending with `F[iE] = Fi; A[iE] = Ai`. -/
def outerIter (O : Oracles Th Hh Pp) (s : OuterState Th Hh Pp) (iE : ℕ) :
    OuterState Th Hh Pp :=
  let qh1 := O.mstep iE s.nM s.qh
  let Li := O.Li iE
  let s' :=
    if acceptCond Li s.Fi iE then
      { s with Fi := (Li : WithBot ℚ),
               te := min (s.te + 1/2) 4, tm := min (s.tm + 1/2) 4,
               qh := qh1, B := (s.qp, qh1, s.pp), qp := O.upd iE s.qp }
    else
      { s with nM := 1, qp := s.B.1, qh := s.B.2.1, pp := s.B.2.2,
               te := min (s.te - 2) (-2), tm := min (s.tm - 2) (-2) }
  { s' with F := s'.F.set iE (some s'.Fi), A := s'.A.set iE (some (O.Ai iE)) }

/-- Loop-exit test evaluated at the end of each outer iteration: the
oracle-abstracted `dp`/`mh` convergence test, or `te < -8`. -/
def brkCond (O : Oracles Th Hh Pp) (s : OuterState Th Hh Pp) (iE : ℕ) : Bool :=
  O.conv iE || decide (s.te < -8)

/-- The outer E-step loop `for iE in range(nE)` with early exit; `rem` is
the number of iterations still to run. -/
def outerLoop (O : Oracles Th Hh Pp) : OuterState Th Hh Pp → ℕ → ℕ → OuterState Th Hh Pp
  | s, _, 0 => s
  | s, iE, rem + 1 =>
    let s' := outerIter O s iE
    if brkCond O s' iE then s' else outerLoop O s' (iE + 1) rem

/-- Initial loop state of `run`: `Fi = -inf`, `te = 0`, `tm = 4`, traces
pre-filled with the NaN sentinel, and `nM` forced to 1 when there are no
hyperparameters (`if nh == 0: nM = 1`).  The checkpoint `B` starts as an
empty record in the source; since the first iteration always accepts and
overwrites `B` before any read, it is initialised here with the initial
moments. -/
def initState (nE nM nh : ℕ) (qp0 : Th) (qh0 : Hh) (pp0 : Pp) : OuterState Th Hh Pp :=
  { Fi := ⊥, te := 0, tm := 4, nM := if nh = 0 then 1 else nM,
    qp := qp0, qh := qh0, pp := pp0, B := (qp0, qh0, pp0),
    F := List.replicate nE none, A := List.replicate nE none }

/-- `DEMInversion.run`: up-front dimension validation followed by the
outer loop.  `ny`/`nc` are the engine's derived output / prior-cause
dimensions, `ydim` the trailing dimension of the observed series `y`,
`udim` the trailing dimension of the explanatory series `u` when given.
The trace arrays are sized by the requested `nE` (allocated before the
`nf == 0 and nh == 0` degradation forces a single outer iteration). -/
def run (ny nc ydim : ℕ) (udim : Option ℕ) (nE nM nh nf : ℕ)
    (O : Oracles Th Hh Pp) (qp0 : Th) (qh0 : Hh) (pp0 : Pp) :
    Except String (OuterState Th Hh Pp) :=
  if ydim ≠ ny then .error "Output dimension mismatch."
  else if ydim ≠ ny then
    .error "Last dimension of input y does not match that of deepest model cause"
  else
    match udim with
    | some m =>
      if m ≠ nc then
        .error "Last dimension of input u does not match that of deepest model cause"
      else .ok (outerLoop O (initState nE nM nh qp0 qh0 pp0) 0
        (if nf = 0 ∧ nh = 0 then 1 else nE))
    | none => .ok (outerLoop O (initState nE nM nh qp0 qh0 pp0) 0
        (if nf = 0 ∧ nh = 0 then 1 else nE))

/-- Invariant of the free-energy/free-action traces as the outer loop
reaches iteration `iE`: lengths equal the requested `nE`, the entries of
completed iterations are filled in both traces, entries of both traces
at and beyond `iE` still hold the NaN sentinel, every filled `F` value
is at most the retained `Fi`, and the filled `F` values are
non-decreasing. -/
def traceInv (nE iE : ℕ) (s : OuterState Th Hh Pp) : Prop :=
  s.F.length = nE ∧ s.A.length = nE ∧
  (∀ k, k < iE → k < nE → (s.F.getD k none).isSome) ∧
  (∀ k, iE ≤ k → s.F.getD k none = none) ∧
  (∀ k, k < iE → k < nE → (s.A.getD k none).isSome) ∧
  (∀ k, iE ≤ k → s.A.getD k none = none) ∧
  (∀ k a, s.F.getD k none = some a → a ≤ s.Fi) ∧
  (∀ j k a b, j ≤ k → s.F.getD j none = some a → s.F.getD k none = some b → a ≤ b)

/-! # Helper lemmas -/

theorem matVec_length (A : Mtx R) (v : List R) : (matVec A v).length = A.rows := by
  simp [matVec]

theorem vadd_length (a b : List R) : (vadd a b).length = min a.length b.length := by
  simp [vadd]

theorem vsub_length (a b : List R) : (vsub a b).length = min a.length b.length := by
  simp [vsub]

theorem blockDiagM_rows (l : List (Mtx R)) :
    (blockDiagM l).rows = (l.map Mtx.rows).sum := by
  induction l with
  | nil => rfl
  | cons A rest ih => simp [blockDiagM, ih]

theorem slices_join (ds : List ℕ) (bs : List (List R))
    (hlen : bs.length = ds.length)
    (hdim : ∀ i, i < ds.length → (bs.getD i []).length = ds.getD i 0) :
    slices ds bs.flatten = bs := by
  induction ds generalizing bs with
  | nil => cases bs with
    | nil => rfl
    | cons b bs => simp at hlen
  | cons d ds ih =>
    cases bs with
    | nil => simp at hlen
    | cons b bs =>
      have hb : b.length = d := by
        have := hdim 0 (by simp)
        simpa using this
      simp only [List.flatten_cons, slices, List.take_left' hb, List.drop_left' hb,
        List.cons.injEq, true_and]
      apply ih
      · simpa using hlen
      · intro i hi
        have := hdim (i + 1) (by simpa using hi)
        simpa using this

theorem hcatList_rows (h : ℕ) (cells : List (Mtx R)) : (hcatList h cells).rows = h := by
  suffices H : ∀ A : Mtx R, (cells.foldl hcatM A).rows = A.rows by
    simpa [hcatList] using H (zerosM h 0)
  induction cells with
  | nil => intro A; rfl
  | cons c rest ih => intro A; simpa [hcatM] using ih (hcatM A c)

theorem vcatList_rows (w : ℕ) (rowsL : List (Mtx R)) :
    (vcatList w rowsL).rows = (rowsL.map Mtx.rows).sum := by
  suffices H : ∀ A : Mtx R, (rowsL.foldl vcatM A).rows = A.rows + (rowsL.map Mtx.rows).sum by
    simpa [vcatList, zerosM] using H (zerosM 0 w)
  induction rowsL with
  | nil => intro A; simp
  | cons r rest ih =>
    intro A
    have h1 := ih (vcatM A r)
    have h2 : (vcatM A r).rows = A.rows + r.rows := rfl
    simp only [List.foldl_cons, List.map_cons, List.sum_cons]
    rw [h1, h2]
    omega

theorem flatten_length_const {bs : List (List R)} {k : ℕ}
    (h : ∀ b ∈ bs, b.length = k) : bs.flatten.length = bs.length * k := by
  induction bs with
  | nil => simp
  | cons b rest ih =>
    have hb := h b (by simp)
    have := ih fun b hb => h b (by simp [hb])
    simp [hb, this, Nat.succ_mul, Nat.add_comm]

theorem getD_zipWith {α β γ : Type} (f : α → β → γ) (as : List α) (bs : List β)
    (i : ℕ) (da : α) (db : β) (dc : γ) (ha : i < as.length) (hb : i < bs.length) :
    (List.zipWith f as bs).getD i dc = f (as.getD i da) (bs.getD i db) := by
  have hy : i < (List.zipWith f as bs).length := by
    simp [List.length_zipWith]; omega
  rw [List.getD_eq_getElem _ _ hy, List.getD_eq_getElem _ _ ha,
    List.getD_eq_getElem _ _ hb, List.getElem_zipWith]

theorem except_ok_of_bind {ε α β : Type} {x : Except ε α} {f : α → Except ε β} {b : β}
    (h : (x >>= f) = .ok b) : ∃ a, x = .ok a ∧ f a = .ok b := by
  cases x with
  | error e => exact Except.noConfusion h
  | ok a => exact ⟨a, rfl, h⟩

theorem zipWith_reduce_eraseP [DecidableEq R] (as : List (PLevel R))
    (svds : List (Mtx R × List R)) (hle : as.length ≤ svds.length) :
    List.zipWith (fun lvl sv => { reduceLevelParams lvl sv with p := 0 }) as svds =
      as.map (fun lvl => { lvl with p := 0 }) := by
  induction as generalizing svds with
  | nil => simp
  | cons a as ih =>
    cases svds with
    | nil => simp at hle
    | cons s ss =>
      simp only [List.zipWith_cons_cons, List.map_cons, List.cons.injEq]
      exact ⟨rfl, ih ss (by simpa using hle)⟩

/-! # Claim theorems -/

/-- C9: `run` raises a descriptive configuration error before any D/E/M
iteration begins exactly when the trailing dimension of `y` differs from
the engine's output dimension `ny`, or an explanatory series `u` is given
whose trailing dimension differs from the top-level prior-cause dimension
`nc`; when both dimensions match, neither check raises (the checks are
the first statements of `run`, ahead of the outer loop). -/
theorem C9_run_dimension_checks (ny nc ydim : ℕ) (udim : Option ℕ) (nE nM nh nf : ℕ)
    (O : Oracles Th Hh Pp) (qp0 : Th) (qh0 : Hh) (pp0 : Pp) :
    (run ny nc ydim udim nE nM nh nf O qp0 qh0 pp0).isOk =
      (decide (ydim = ny) && udim.elim true fun m => decide (m = nc)) := by
  unfold run
  cases udim with
  | none =>
    by_cases h : ydim = ny <;> simp [h, Except.isOk, Except.toBool]
  | some m =>
    by_cases h : ydim = ny <;> by_cases hm : m = nc <;>
      simp [h, hm, Except.isOk, Except.toBool]

/-- C2 (amended): in the outer loop of `run`, the accept branch —
checkpointing `(qp, qh, pp)` into `B` and then applying the parameter
update — is taken exactly when the candidate free energy `Li` improved on
the best value so far, or the iteration is the first outer iteration
(`iE < 1`); otherwise the previous checkpoint is restored into
`qp`, `qh`, `pp`.  The claim's "one of the first two outer iterations" is
amended to "the first outer iteration" (see the counterexample). -/
theorem C2_accept_exactly_on_improvement_or_first
    (O : Oracles Th Hh Pp) (s : OuterState Th Hh Pp) (iE : ℕ) :
    (acceptCond (O.Li iE) s.Fi iE = true ↔ (s.Fi < (O.Li iE : WithBot ℚ) ∨ iE = 0))
    ∧ (outerIter O s iE).qp =
        (if acceptCond (O.Li iE) s.Fi iE then O.upd iE s.qp else s.B.1)
    ∧ (outerIter O s iE).B =
        (if acceptCond (O.Li iE) s.Fi iE then (s.qp, O.mstep iE s.nM s.qh, s.pp) else s.B)
    ∧ (outerIter O s iE).qh =
        (if acceptCond (O.Li iE) s.Fi iE then O.mstep iE s.nM s.qh else s.B.2.1)
    ∧ (outerIter O s iE).pp =
        (if acceptCond (O.Li iE) s.Fi iE then s.pp else s.B.2.2)
    ∧ (outerIter O s iE).Fi =
        (if acceptCond (O.Li iE) s.Fi iE then (O.Li iE : WithBot ℚ) else s.Fi) := by
  refine ⟨?_, ?_, ?_, ?_, ?_, ?_⟩
  · simp [acceptCond, Nat.lt_one_iff]
  all_goals by_cases h : acceptCond (O.Li iE) s.Fi iE <;> simp [outerIter, h]

/-- C2 counterexample: at outer iteration `iE = 1` — the second of the
claimed "first two" — with candidate `Li = 0` not exceeding the best
value so far `Fi = 0`, `run` takes the reject branch: the acceptance test
is false and the checkpointed `qp = 9` is restored instead of the update
(`upd` would have produced `6`).  Hence the claim that the accept branch
is taken on "one of the first two outer iterations" is false. -/
theorem C2_counterexample :
    let O : Oracles ℚ ℚ ℚ :=
      ⟨fun _ => 0, fun _ => 0, fun _ _ h => h, fun _ q => q + 1, fun _ => false⟩
    let s : OuterState ℚ ℚ ℚ :=
      ⟨((0 : ℚ) : WithBot ℚ), 0, 4, 8, 5, 5, 5, (9, 9, 9), [none, none], [none, none]⟩
    acceptCond (O.Li 1) s.Fi 1 = false ∧ (outerIter O s 1).qp = 9 ∧ (1 : ℕ) < 2 := by
  refine ⟨by decide, ?_, by decide⟩
  simp [outerIter, acceptCond]

/-- C3 (amended): `te` and `tm` are raised by `1/2` per accepted outer
iteration and capped at `4`; on a rejected outer iteration they are set
to `min(· - 2, -2)` — dropped by at least 2 and clamped from above at
`-2`, not floored at `-2` (see the counterexample) — and `nM` is forced
to `1`; `nM` is never changed otherwise, so it stays `1` for the
remainder of the call; and once `te` has dropped below `-8` at the end of
an iteration the outer loop stops. -/
theorem C3_temperature_schedule (O : Oracles Th Hh Pp) (s : OuterState Th Hh Pp)
    (iE rem : ℕ) :
    (outerIter O s iE).te =
      (if acceptCond (O.Li iE) s.Fi iE then min (s.te + 1/2) 4 else min (s.te - 2) (-2))
    ∧ (outerIter O s iE).tm =
      (if acceptCond (O.Li iE) s.Fi iE then min (s.tm + 1/2) 4 else min (s.tm - 2) (-2))
    ∧ (outerIter O s iE).nM = (if acceptCond (O.Li iE) s.Fi iE then s.nM else 1)
    ∧ ((outerLoop O s iE rem).nM = s.nM ∨ (outerLoop O s iE rem).nM = 1)
    ∧ ((outerIter O s iE).te < -8 → outerLoop O s iE (rem + 1) = outerIter O s iE) := by
  refine ⟨?_, ?_, ?_, ?_, ?_⟩
  · by_cases h : acceptCond (O.Li iE) s.Fi iE <;> simp [outerIter, h]
  · by_cases h : acceptCond (O.Li iE) s.Fi iE <;> simp [outerIter, h]
  · by_cases h : acceptCond (O.Li iE) s.Fi iE <;> simp [outerIter, h]
  · induction rem generalizing s iE with
    | zero => left; rfl
    | succ r ih =>
      have hstep : (outerIter O s iE).nM = s.nM ∨ (outerIter O s iE).nM = 1 := by
        by_cases h : acceptCond (O.Li iE) s.Fi iE <;> simp [outerIter, h]
      by_cases hb : brkCond O (outerIter O s iE) iE
      · have hres : outerLoop O s iE (r + 1) = outerIter O s iE := by
          rw [outerLoop]; simp [hb]
        rw [hres]; exact hstep
      · have hres : outerLoop O s iE (r + 1) = outerLoop O (outerIter O s iE) (iE + 1) r := by
          rw [outerLoop]; simp [hb]
        rw [hres]
        rcases ih (outerIter O s iE) (iE + 1) with h' | h'
        · rcases hstep with h2 | h2
          · left; rw [h', h2]
          · right; rw [h', h2]
        · right; exact h'
  · intro hte
    rw [outerLoop]
    have : brkCond O (outerIter O s iE) iE = true := by
      simp [brkCond, hte]
    simp [this]

/-- C3 counterexample: a run whose free-energy oracle accepts the first
iteration and rejects the next two drives `te` from `0` to `1/2`, then to
`min(1/2 - 2, -2) = -2`, then to `min(-2 - 2, -2) = -4 < -2`: the second
rejection lowers `te` strictly below `-2`, so the claimed floor of `-2`
on rejection is false (and the first rejection dropped `te` by `5/2`,
not by `2`). -/
theorem C3_counterexample :
    let O : Oracles ℚ ℚ ℚ :=
      ⟨fun i => if i = 0 then 0 else -1, fun _ => 0, fun _ _ h => h,
        fun _ q => q, fun _ => false⟩
    (outerLoop O (initState 3 8 1 (0 : ℚ) (0 : ℚ) (0 : ℚ)) 0 3).te = -4
      ∧ ((-4 : ℚ) < -2) := by
  constructor
  · norm_num [outerLoop, outerIter, initState, acceptCond, brkCond, min_def,
      WithBot.bot_lt_coe, WithBot.coe_lt_coe]
  · norm_num

/-- C10: for every model, state estimate and parameter deviation, and for
every cause embedding order `d`, calling the prediction-error engine with
state embedding order `n = 2` (inversion engine constructed with
`states_embedding_order = 1`) fails: the state-error loop over orders
`1..n-2` is empty, so the Python name `Exi` is unbound when the final
forced-zero block `np.zeros_like(Exi)` is built, and the source raises an
unhandled `NameError`. -/
theorem C10_eval_err_diff_crashes_at_order_two (d : ℕ) (M : List (DLevel R))
    (qu : QU R) (qp : QP R) :
    dem_eval_err_diff 2 d M qu qp = .error "NameError: name 'Exi' is not defined" := rfl

/-- C6 (amended): after preparation, `run` does mutate the model: its
parameter-reduction block overwrites each non-terminal level's `p` field
with the number of nonzero singular values retained from the SVD of that
level's `pC` (`M[i].p = Ui.shape[1]`), while every other field of every
model-level descriptor is left unmodified (and the terminal level is
untouched; `generate` reads the model without writing to it). -/
theorem C6_run_mutates_exactly_p [DecidableEq R] (Ms : List (PLevel R))
    (svds : List (Mtx R × List R)) (hM : Ms ≠ [])
    (hlen : svds.length = Ms.length - 1) :
    (runReducedModels Ms svds).map (fun lvl => { lvl with p := 0 }) =
      Ms.map (fun lvl => { lvl with p := 0 })
    ∧ ∀ i, i < Ms.length - 1 →
        ((runReducedModels Ms svds).getD i PLevel.dflt).p =
          ((svds.getD i (zerosM 0 0, [])).2.filter fun s => s ≠ 0).length := by
  have htop : Ms.getLast? = some (Ms.getLast hM) := List.getLast?_eq_getLast Ms hM
  have hdl : Ms.dropLast.length = Ms.length - 1 := List.length_dropLast Ms
  constructor
  · rw [runReducedModels, htop]
    have hzip : List.zipWith (fun lvl sv => { reduceLevelParams lvl sv with p := 0 })
        Ms.dropLast svds = Ms.dropLast.map fun lvl => { lvl with p := 0 } :=
      zipWith_reduce_eraseP Ms.dropLast svds (by omega)
    calc ((List.zipWith reduceLevelParams Ms.dropLast svds) ++ [Ms.getLast hM]).map
          (fun lvl => { lvl with p := 0 })
        = (List.zipWith (fun lvl sv => { reduceLevelParams lvl sv with p := 0 })
            Ms.dropLast svds) ++ [{ Ms.getLast hM with p := 0 }] := by
          simp [List.map_zipWith]
      _ = Ms.dropLast.map (fun lvl => { lvl with p := 0 })
            ++ [{ Ms.getLast hM with p := 0 }] := by rw [hzip]
      _ = (Ms.dropLast ++ [Ms.getLast hM]).map (fun lvl => { lvl with p := 0 }) := by
          simp
      _ = Ms.map (fun lvl => { lvl with p := 0 }) := by
          rw [List.dropLast_append_getLast hM]
  · intro i hi
    rw [runReducedModels, htop]
    have hiz : i < (List.zipWith reduceLevelParams Ms.dropLast svds).length := by
      simp [List.length_zipWith]; omega
    rw [List.getD_append _ _ _ _ hiz,
      getD_zipWith reduceLevelParams Ms.dropLast svds i PLevel.dflt (zerosM 0 0, [])
        PLevel.dflt (by omega) (by omega)]
    rfl

theorem outerIter_traces (O : Oracles Th Hh Pp) (s : OuterState Th Hh Pp) (iE : ℕ) :
    (outerIter O s iE).F = s.F.set iE (some (outerIter O s iE).Fi)
    ∧ (outerIter O s iE).A = s.A.set iE (some (O.Ai iE)) := by
  by_cases h : acceptCond (O.Li iE) s.Fi iE <;> simp [outerIter, h]

theorem getD_set_some {α : Type} (l : List (Option α)) (nE i k : ℕ)
    (hlen : l.length = nE) (a : α) :
    (l.set i (some a)).getD k none =
      if k = i ∧ i < nE then some a else l.getD k none := by
  rw [List.getD_eq_getElem?_getD, List.getD_eq_getElem?_getD]
  by_cases hk : i = k
  · subst hk
    by_cases hlt : i < nE
    · rw [List.getElem?_set_self (by rw [hlen]; exact hlt)]
      simp [hlt]
    · rw [List.set_eq_of_length_le (by rw [hlen]; omega)]
      simp [hlt]
  · rw [List.getElem?_set_ne hk]
    rw [if_neg fun hh => hk hh.1.symm]

theorem outerIter_Fi_mono (O : Oracles Th Hh Pp) (s : OuterState Th Hh Pp) (iE : ℕ)
    (hnz : iE ≠ 0) : s.Fi ≤ (outerIter O s iE).Fi := by
  by_cases h : acceptCond (O.Li iE) s.Fi iE
  · have hor : s.Fi < (O.Li iE : WithBot ℚ) ∨ iE < 1 := by simpa [acceptCond] using h
    have hlt : s.Fi < (O.Li iE : WithBot ℚ) := by
      rcases hor with h' | h'
      · exact h'
      · omega
    have : (outerIter O s iE).Fi = (O.Li iE : WithBot ℚ) := by simp [outerIter, h]
    rw [this]
    exact le_of_lt hlt
  · have : (outerIter O s iE).Fi = s.Fi := by simp [outerIter, h]
    rw [this]

theorem outerIter_traceInv (O : Oracles Th Hh Pp) (s : OuterState Th Hh Pp) (nE iE : ℕ)
    (h : traceInv nE iE s) : traceInv nE (iE + 1) (outerIter O s iE) := by
  obtain ⟨hF, hA, hfill, hnone, hfillA, hnoneA, hle, hmono⟩ := h
  obtain ⟨hF', hA'⟩ := outerIter_traces O s iE
  have hgd : ∀ k, (outerIter O s iE).F.getD k none =
      (if k = iE ∧ iE < nE then some (outerIter O s iE).Fi else s.F.getD k none) := by
    intro k
    rw [hF']
    exact getD_set_some s.F nE iE k hF _
  have hgdA : ∀ k, (outerIter O s iE).A.getD k none =
      (if k = iE ∧ iE < nE then some (O.Ai iE) else s.A.getD k none) := by
    intro k
    rw [hA']
    exact getD_set_some s.A nE iE k hA _
  have hkey : ∀ k a, s.F.getD k none = some a → a ≤ (outerIter O s iE).Fi := by
    intro k a ha
    rcases Nat.eq_zero_or_pos iE with h0 | h0
    · have := hnone k (by omega)
      rw [this] at ha
      exact absurd ha (by simp)
    · exact le_trans (hle k a ha) (outerIter_Fi_mono O s iE (by omega))
  refine ⟨by rw [hF']; simp [hF], by rw [hA']; simp [hA], ?_, ?_, ?_, ?_, ?_, ?_⟩
  · intro k hk hkn
    rw [hgd k]
    by_cases hke : k = iE
    · subst hke
      simp [hkn]
    · have hklt : k < iE := by omega
      simpa [hke] using hfill k hklt hkn
  · intro k hk
    rw [hgd k]
    have hke : ¬ k = iE := by omega
    simpa [hke] using hnone k (by omega)
  · intro k hk hkn
    rw [hgdA k]
    by_cases hke : k = iE
    · subst hke
      simp [hkn]
    · have hklt : k < iE := by omega
      simpa [hke] using hfillA k hklt hkn
  · intro k hk
    rw [hgdA k]
    have hke : ¬ k = iE := by omega
    simpa [hke] using hnoneA k (by omega)
  · intro k a ha
    rw [hgd k] at ha
    by_cases hc : k = iE ∧ iE < nE
    · rw [if_pos hc] at ha
      exact le_of_eq (Option.some_injective _ ha).symm
    · rw [if_neg hc] at ha
      exact hkey k a ha
  · intro j k a b hjk haj hbk
    rw [hgd j] at haj
    rw [hgd k] at hbk
    by_cases hck : k = iE ∧ iE < nE
    · rw [if_pos hck] at hbk
      have hb : b = (outerIter O s iE).Fi := (Option.some_injective _ hbk).symm
      subst hb
      by_cases hcj : j = iE ∧ iE < nE
      · rw [if_pos hcj] at haj
        exact le_of_eq (Option.some_injective _ haj).symm
      · rw [if_neg hcj] at haj
        exact hkey j a haj
    · rw [if_neg hck] at hbk
      have hkiE : k < iE := by
        by_contra hge
        have := hnone k (by omega)
        rw [this] at hbk
        exact absurd hbk (by simp)
      have hcj : ¬(j = iE ∧ iE < nE) := by
        intro hcj
        omega
      rw [if_neg hcj] at haj
      exact hmono j k a b hjk haj hbk

theorem outerLoop_traceInv (O : Oracles Th Hh Pp) (s : OuterState Th Hh Pp)
    (nE iE rem : ℕ) (h : traceInv nE iE s) :
    ∃ iE', traceInv nE iE' (outerLoop O s iE rem) := by
  induction rem generalizing s iE with
  | zero => exact ⟨iE, h⟩
  | succ r ih =>
    by_cases hb : brkCond O (outerIter O s iE) iE
    · have hres : outerLoop O s iE (r + 1) = outerIter O s iE := by
        rw [outerLoop]; simp [hb]
      rw [hres]
      exact ⟨iE + 1, outerIter_traceInv O s nE iE h⟩
    · have hres : outerLoop O s iE (r + 1) = outerLoop O (outerIter O s iE) (iE + 1) r := by
        rw [outerLoop]; simp [hb]
      rw [hres]
      exact ih _ _ (outerIter_traceInv O s nE iE h)

theorem initState_traceInv (nE nM nh : ℕ) (qp0 : Th) (qh0 : Hh) (pp0 : Pp) :
    traceInv nE 0 (initState nE nM nh qp0 qh0 pp0 : OuterState Th Hh Pp) := by
  have hrep : ∀ (α : Type) (k : ℕ),
      ((List.replicate nE (none : Option α)).getD k none) = none := by
    intro α k
    rw [List.getD_eq_getElem?_getD, List.getElem?_replicate]
    by_cases hk : k < nE <;> simp [hk]
  refine ⟨by simp [initState], by simp [initState], ?_, ?_, ?_, ?_, ?_, ?_⟩
  · intro k hk
    omega
  · intro k _
    simpa [initState] using hrep _ k
  · intro k hk
    omega
  · intro k _
    simpa [initState] using hrep _ k
  · intro k a ha
    have : (initState nE nM nh qp0 qh0 pp0 : OuterState Th Hh Pp).F =
        List.replicate nE none := rfl
    rw [this, hrep _ k] at ha
    exact absurd ha (by simp)
  · intro j k a b _ haj _
    have : (initState nE nM nh qp0 qh0 pp0 : OuterState Th Hh Pp).F =
        List.replicate nE none := rfl
    rw [this, hrep _ j] at haj
    exact absurd haj (by simp)

/-- C4: for every call of `run`'s outer loop with `nE` requested outer
iterations (the returned traces are exactly this loop's `F`/`A` fields),
the traces `F` and `A` each have length `nE` (allocated before the
graceful-degradation forcing of a single iteration), in both traces
every entry whose outer iteration was never completed still holds the
not-yet-computed sentinel (`np.nan`, modelled by `none`) and the filled
entries form a prefix of completed iterations, and the filled entries of
`F` (the retained free energy `Fi` recorded at the end of each completed
outer iteration) are non-decreasing in iteration index. -/
theorem C4_trace_lengths_sentinels_monotone (O : Oracles Th Hh Pp)
    (nE nM nh nf : ℕ) (qp0 : Th) (qh0 : Hh) (pp0 : Pp) :
    (outerLoop O (initState nE nM nh qp0 qh0 pp0) 0
        (if nf = 0 ∧ nh = 0 then 1 else nE)).F.length = nE
    ∧ (outerLoop O (initState nE nM nh qp0 qh0 pp0) 0
        (if nf = 0 ∧ nh = 0 then 1 else nE)).A.length = nE
    ∧ ∃ m, m ≤ nE
      ∧ (∀ k, k < m →
          ((outerLoop O (initState nE nM nh qp0 qh0 pp0) 0
            (if nf = 0 ∧ nh = 0 then 1 else nE)).F.getD k none).isSome)
      ∧ (∀ k, m ≤ k →
          (outerLoop O (initState nE nM nh qp0 qh0 pp0) 0
            (if nf = 0 ∧ nh = 0 then 1 else nE)).F.getD k none = none)
      ∧ (∀ k, k < m →
          ((outerLoop O (initState nE nM nh qp0 qh0 pp0) 0
            (if nf = 0 ∧ nh = 0 then 1 else nE)).A.getD k none).isSome)
      ∧ (∀ k, m ≤ k →
          (outerLoop O (initState nE nM nh qp0 qh0 pp0) 0
            (if nf = 0 ∧ nh = 0 then 1 else nE)).A.getD k none = none)
      ∧ ∀ j k a b, j ≤ k →
          (outerLoop O (initState nE nM nh qp0 qh0 pp0) 0
            (if nf = 0 ∧ nh = 0 then 1 else nE)).F.getD j none = some a →
          (outerLoop O (initState nE nM nh qp0 qh0 pp0) 0
            (if nf = 0 ∧ nh = 0 then 1 else nE)).F.getD k none = some b →
          a ≤ b := by
  obtain ⟨iE', hinv⟩ := outerLoop_traceInv O (initState nE nM nh qp0 qh0 pp0) nE 0
    (if nf = 0 ∧ nh = 0 then 1 else nE) (initState_traceInv nE nM nh qp0 qh0 pp0)
  obtain ⟨hF, hA, hfill, hnone, hfillA, hnoneA, _, hmono⟩ := hinv
  refine ⟨hF, hA, min iE' nE, Nat.min_le_right _ _, ?_, ?_, ?_, ?_, hmono⟩
  · intro k hk
    exact hfill k (by omega) (by omega)
  · intro k hk
    rcases Nat.le_total iE' nE with hle' | hle'
    · exact hnone k (by omega)
    · by_cases hkE : iE' ≤ k
      · exact hnone k hkE
      · rw [List.getD_eq_getElem?_getD, List.getElem?_eq_none (by omega)]
        rfl
  · intro k hk
    exact hfillA k (by omega) (by omega)
  · intro k hk
    rcases Nat.le_total iE' nE with hle' | hle'
    · exact hnoneA k (by omega)
    · by_cases hkE : iE' ≤ k
      · exact hnoneA k hkE
      · rw [List.getD_eq_getElem?_getD, List.getElem?_eq_none (by omega)]
        rfl

/-- C6 counterexample: a non-terminal level declaring one parameter
(`p = 1`) with prior covariance `pC = [[0]]` (whose only valid SVD has
singular values `s = [0]`, since `U diag(s) Vh = 0` with orthogonal
`U`, `Vh` forces `s = 0`) has its `p` field overwritten by `run`'s
parameter-reduction block to `0 ≠ 1`: the model is not read-only during
inversion, contradicting the claim. -/
theorem C6_counterexample :
    let lvl : PLevel ℚ :=
      { f := fun _ _ _ => [], g := none, m := 0, n := 0, l := 1, p := 1, nP := 1,
        x := [], v := [], pE := [0], pC := [[0]], constraints := none }
    let top : PLevel ℚ :=
      { f := fun _ _ _ => [], g := none, m := 0, n := 0, l := 1, p := 0, nP := 0,
        x := [], v := [], pE := [], pC := [], constraints := none }
    ((runReducedModels [lvl, top] [(eyeM 1 1, [0])]).getD 0 PLevel.dflt).p = 0
      ∧ lvl.p = 1 ∧ (0 : ℕ) ≠ 1 := by
  refine ⟨rfl, rfl, by decide⟩

/-- C8: during preparation of a level that declares per-parameter sign
constraints, a size mismatch between the constraint mask and `pE` raises
a configuration error; otherwise every entry of `pE` marked positive is
replaced by `ln(1 + pE)`, every entry marked negative by `ln(1 - pE)`,
and the rows of `pC` picked out by the constrained mask entries are
replaced entrywise by `ln(1 + pC)` in both cases; consequently for a
positive-constrained parameter with prior expectation `e > -1` the
encoded expectation equals `ln(1 + e)` and the inverse map
`exp(encoded) - 1` recovers `e` exactly. -/
theorem C8_sign_constraint_encoding (cs : List Cstr) (pE : List ℝ) (pC : List (List ℝ))
    (e : ℝ) (he : -1 < e) :
    (cs.length ≠ pE.length → (applyConstraints Real.log cs pE pC).isOk = false)
    ∧ (∀ out, applyConstraints Real.log cs pE pC = .ok out →
        cs.length = pE.length
        ∧ (∀ i, i < cs.length → cs.getD i .unconstrained = .positive →
            out.1.getD i 0 = Real.log (1 + pE.getD i 0))
        ∧ (∀ i, i < cs.length → cs.getD i .unconstrained = .negative →
            out.1.getD i 0 = Real.log (1 - pE.getD i 0))
        ∧ (∀ i, i < cs.length → i < pC.length →
            cs.getD i .unconstrained ≠ .unconstrained →
            out.2.getD i [] = (pC.getD i []).map fun a => Real.log (1 + a)))
    ∧ Real.exp (Real.log (1 + e)) - 1 = e := by
  refine ⟨?_, ?_, ?_⟩
  · intro h
    simp [applyConstraints, h, Except.isOk, Except.toBool]
  · intro out hout
    by_cases hlen : cs.length = pE.length
    · rw [applyConstraints, if_neg (by omega)] at hout
      cases hout
      refine ⟨hlen, ?_, ?_, ?_⟩
      · intro i hi hpos
        dsimp only
        rw [getD_zipWith _ cs pE i .unconstrained 0 0 hi (by omega), hpos]
      · intro i hi hneg
        dsimp only
        rw [getD_zipWith _ cs pE i .unconstrained 0 0 hi (by omega), hneg]
      · intro i hi hiC hc
        dsimp only
        rw [getD_zipWith _ cs pC i .unconstrained [] [] hi hiC]
        cases hcv : cs.getD i .unconstrained with
        | positive => rfl
        | negative => rfl
        | unconstrained => exact absurd hcv hc
    · rw [applyConstraints, if_pos (by omega)] at hout
      exact Except.noConfusion hout
  · rw [Real.exp_log (by linarith)]
    ring

/-- C8 witness: for the concrete input `cs = [positive]`, `pE = [1]`,
`pC = [[1]]`, `e = 1` the encoding succeeds and the inverse map recovers
`e`. -/
theorem C8_witness :
    (applyConstraints Real.log [Cstr.positive] [(1 : ℝ)] [[(1 : ℝ)]]).isOk = true
    ∧ Real.exp (Real.log (1 + 1)) - 1 = (1 : ℝ)
    ∧ ((-1 : ℝ) < 1) :=
  ⟨rfl, (C8_sign_constraint_encoding [Cstr.positive] [(1 : ℝ)] [[(1 : ℝ)]] 1
    (by norm_num)).2.2, by norm_num⟩

theorem mapE_length {α β ε : Type} (f : α → Except ε β) (l : List α) (l' : List β)
    (h : mapE f l = .ok l') : l'.length = l.length := by
  induction l generalizing l' with
  | nil =>
    rw [mapE] at h
    cases h
    rfl
  | cons a as ih =>
    rw [mapE] at h
    obtain ⟨b, hfa, h2⟩ := except_ok_of_bind h
    obtain ⟨bs, hrest, h3⟩ := except_ok_of_bind h2
    cases h3
    simpa using ih bs hrest

theorem mapE_append_singleton {α β ε : Type} (f : α → Except ε β) (l : List α) (a : α)
    (l' : List β) (h : mapE f (l ++ [a]) = .ok l') :
    ∃ front b, mapE f l = .ok front ∧ f a = .ok b ∧ l' = front ++ [b] := by
  induction l generalizing l' with
  | nil =>
    rw [List.nil_append, mapE] at h
    obtain ⟨b, hfa, h2⟩ := except_ok_of_bind h
    obtain ⟨bs, hrest, h3⟩ := except_ok_of_bind h2
    cases h3
    rw [show mapE f ([] : List α) = Except.ok ([] : List β) from rfl] at hrest
    cases hrest
    exact ⟨[], b, rfl, hfa, rfl⟩
  | cons x xs ih =>
    rw [List.cons_append, mapE] at h
    obtain ⟨b0, hfx, h2⟩ := except_ok_of_bind h
    obtain ⟨bs, hrest, h3⟩ := except_ok_of_bind h2
    cases h3
    obtain ⟨front, b, hfront, hfa, hbs⟩ := ih bs hrest
    exact ⟨b0 :: front, b, by rw [mapE, hfx, hfront]; rfl, hfa, by rw [hbs]; rfl⟩

theorem prepLevel_m (rlog : R → R) (lv : RawLevel R) (mid : MidLevel R)
    (h : prepLevel rlog lv = .ok mid) : mid.m = lv.m := by
  rw [prepLevel] at h
  dsimp only at h
  repeat' split at h
  all_goals
    first
      | exact Except.noConfusion h
      | (cases h; rfl)
      | (obtain ⟨epc, -, h2⟩ := except_ok_of_bind h; cases h2; rfl)

theorem checkDown_length (l : List (MidLevel R)) (v : List R) (out : List (PLevel R))
    (h : checkDown l v = .ok out) : out.length = l.length := by
  induction l generalizing v out with
  | nil =>
    rw [checkDown] at h
    cases h
    rfl
  | cons lv rest ih =>
    rw [checkDown] at h
    dsimp only at h
    repeat' split at h
    all_goals
      first
        | exact Except.noConfusion h
        | (obtain ⟨outr, hrest, h2⟩ := except_ok_of_bind h; cases h2;
            simpa using ih _ outr hrest)

/-- C7: for every non-empty list of model-level descriptors whose last
supplied level declares an observation map and a cause dimension
`m = mv`, successful preparation appends exactly one terminal level: the
prepared hierarchy has one more level than supplied, and its last level
has `n = m = p = 0` and output dimension `l = mv` (the last supplied
level's cause dimension).  In particular a single descriptor with only an
observation map prepares to exactly 2 levels with this terminal level
(the witness instantiates that case). -/
theorem C7_appended_terminal_level (rlog : R → R) (models : List (RawLevel R))
    (hne : models ≠ []) (hg : (models.getLast hne).g.isSome) (mv : ℕ)
    (hm : (models.getLast hne).m = some mv) (out : List (PLevel R))
    (hok : prepare_models rlog models = .ok out) :
    out.length = models.length + 1
    ∧ (out.getD models.length PLevel.dflt).n = 0
    ∧ (out.getD models.length PLevel.dflt).m = 0
    ∧ (out.getD models.length PLevel.dflt).p = 0
    ∧ (out.getD models.length PLevel.dflt).l = mv := by
  have hpos : 0 < models.length := List.length_pos.mpr hne
  have hlast : models.getLast? = some (models.getLast hne) :=
    List.getLast?_eq_getLast models hne
  unfold prepare_models at hok
  rw [hlast] at hok
  dsimp only at hok
  rw [if_pos hg, hm] at hok
  rw [setLastRaw, List.getLast?_concat, List.dropLast_concat] at hok
  dsimp only at hok
  obtain ⟨M1, hmap, hok2⟩ := except_ok_of_bind hok
  obtain ⟨front, midA, hfront, hprepA, hM1⟩ := mapE_append_singleton _ _ _ _ hmap
  have hAval : prepLevel rlog ({ l := some mv, n := some 0, m := some 0 } : RawLevel R) =
      .ok { f := fun _ _ _ => [], g := none, m := some 0, n := some 0, l := some mv,
            x := some [], v := none, pE := [], p := 0, nP := 0, pC := [],
            constraints := none } := rfl
  rw [hAval] at hprepA
  cases hprepA
  have hflen : front.length = models.length := mapE_length _ _ _ hfront
  have hmodels : models.dropLast ++ [models.getLast hne] = models :=
    List.dropLast_append_getLast hne
  rw [← hmodels] at hfront
  obtain ⟨front2, bLast, hfront2, hpLast, hfronteq⟩ := mapE_append_singleton _ _ _ _ hfront
  have hfrontlen2 : front2.length = models.length - 1 := by
    rw [mapE_length _ _ _ hfront2, List.length_dropLast]
  have hbm : bLast.m = some mv := by
    rw [prepLevel_m rlog _ _ hpLast, hm]
  rw [hM1] at hok2
  rw [List.getLast?_concat] at hok2
  dsimp only at hok2
  have hscrut : ((front ++
      [({ f := fun _ _ _ => [], g := none, m := some 0, n := some 0, l := some mv,
          x := some [], v := none, pE := [], p := 0, nP := 0, pC := [],
          constraints := none } : MidLevel R)]).getD
        ((front ++
          [({ f := fun _ _ _ => [], g := none, m := some 0, n := some 0, l := some mv,
              x := some [], v := none, pE := [], p := 0, nP := 0, pC := [],
              constraints := none } : MidLevel R)]).length - 2) MidLevel.dflt).m =
      some mv := by
    have hidx : (front ++
        [({ f := fun _ _ _ => [], g := none, m := some 0, n := some 0, l := some mv,
            x := some [], v := none, pE := [], p := 0, nP := 0, pC := [],
            constraints := none } : MidLevel R)]).length - 2 = models.length - 1 := by
      simp [hflen]
    rw [hidx, List.getD_append _ _ _ _ (by omega), hfronteq]
    have : (front2 ++ [bLast]).getD (models.length - 1) MidLevel.dflt = bLast := by
      rw [List.getD_eq_getElem?_getD, List.getElem?_append_right (by omega), hfrontlen2]
      simp
    rw [this, hbm]
  rw [hscrut] at hok2
  dsimp only at hok2
  rw [List.dropLast_concat] at hok2
  obtain ⟨processed, hcd, hok3⟩ := except_ok_of_bind hok2
  cases hok3
  have hplen : processed.length = models.length := by
    rw [checkDown_length _ _ _ hcd, List.length_reverse, hflen]
  have hrevlen : processed.reverse.length = models.length := by
    rw [List.length_reverse, hplen]
  have hgettop : ∀ tp : PLevel R, (processed.reverse ++ [tp]).getD models.length
      PLevel.dflt = tp := by
    intro tp
    rw [List.getD_eq_getElem?_getD, List.getElem?_append_right (by omega), hrevlen]
    simp
  refine ⟨by simp [hrevlen], ?_, ?_, ?_, ?_⟩ <;> rw [hgettop] <;> simp

/-- C3 witness: a concrete rejected iteration from `te = -7` lands at
`te = min(-9, -2) = -9 < -8`, and the loop then stops immediately. -/
theorem C3_witness :
    let O : Oracles ℚ ℚ ℚ :=
      ⟨fun _ => 0, fun _ => 0, fun _ _ h => h, fun _ q => q, fun _ => false⟩
    let s : OuterState ℚ ℚ ℚ :=
      ⟨((5 : ℚ) : WithBot ℚ), -7, 0, 8, 0, 0, 0, (1, 2, 3), [], []⟩
    (outerIter O s 1).te = -9 ∧ outerLoop O s 1 5 = outerIter O s 1 := by
  intro O s
  have h := C3_temperature_schedule O s 1 4
  have hacc : acceptCond (O.Li 1) s.Fi 1 = false := by
    norm_num [acceptCond, s, O, WithBot.coe_lt_coe]
  have hte : (outerIter O s 1).te = -9 := by
    rw [h.1, hacc]
    norm_num [s, min_def]
  exact ⟨hte, h.2.2.2.2 (by rw [hte]; norm_num)⟩

/-- C6 witness: a concrete two-level hierarchy whose non-terminal level
has one nonzero singular value keeps every field except `p`, and `p`
becomes the retained count `1`. -/
theorem C6_witness :
    let lvlA : PLevel ℤ :=
      { f := fun _ _ _ => [], g := none, m := 1, n := 0, l := 1, p := 7, nP := 1,
        x := [], v := [], pE := [2], pC := [[4]], constraints := none }
    let lvlB : PLevel ℤ :=
      { f := fun _ _ _ => [], g := none, m := 0, n := 0, l := 1, p := 0, nP := 0,
        x := [], v := [], pE := [], pC := [], constraints := none }
    ((runReducedModels [lvlA, lvlB] [(eyeM 1 1, [(3 : ℤ)])]).getD 0 PLevel.dflt).p = 1
    ∧ (runReducedModels [lvlA, lvlB] [(eyeM 1 1, [(3 : ℤ)])]).map
        (fun lvl => { lvl with p := 0 }) =
      [lvlA, lvlB].map fun lvl => { lvl with p := 0 } := by
  intro lvlA lvlB
  have h := C6_run_mutates_exactly_p [lvlA, lvlB] [(eyeM 1 1, [(3 : ℤ)])]
    (by simp) (by simp)
  refine ⟨?_, h.1⟩
  have h2 := h.2 0 (by norm_num)
  rw [h2]
  decide

/-- C7 witness: preparing the single descriptor with only an observation
map (`g = const [5]`, cause dimension `m = 1`) yields a hierarchy of
exactly 2 levels whose appended top level has `n = m = p = 0` and output
dimension `l = 1`. -/
theorem C7_witness :
    ((prepare_models (fun q => q)
        [({ g := some fun _ _ _ => [5], m := some 1 } : RawLevel ℚ)]).toOption.getD
      []).length = 2
    ∧ (((prepare_models (fun q => q)
        [({ g := some fun _ _ _ => [5], m := some 1 } : RawLevel ℚ)]).toOption.getD
      []).getD 1 PLevel.dflt).n = 0
    ∧ (((prepare_models (fun q => q)
        [({ g := some fun _ _ _ => [5], m := some 1 } : RawLevel ℚ)]).toOption.getD
      []).getD 1 PLevel.dflt).m = 0
    ∧ (((prepare_models (fun q => q)
        [({ g := some fun _ _ _ => [5], m := some 1 } : RawLevel ℚ)]).toOption.getD
      []).getD 1 PLevel.dflt).p = 0
    ∧ (((prepare_models (fun q => q)
        [({ g := some fun _ _ _ => [5], m := some 1 } : RawLevel ℚ)]).toOption.getD
      []).getD 1 PLevel.dflt).l = 1 := by
  obtain ⟨out, hok⟩ : ∃ out, prepare_models (fun q => q)
      [({ g := some fun _ _ _ => [5], m := some 1 } : RawLevel ℚ)] = .ok out := ⟨_, rfl⟩
  have h := C7_appended_terminal_level (fun q => q)
    [({ g := some fun _ _ _ => [5], m := some 1 } : RawLevel ℚ)]
    (by simp) (by simp [List.getLast]) 1 (by simp [List.getLast]) out hok
  rw [hok]
  simpa [Except.toOption] using h

theorem unflatten_length (r c : ℕ) (u : List R) : (unflatten r c u).length = r := by
  simp [unflatten]

theorem getD_map {α β : Type} (f : α → β) (l : List α) (i : ℕ) (hi : i < l.length)
    (d : β) (d' : α) : (l.map f).getD i d = f (l.getD i d') := by
  rw [List.getD_eq_getElem _ _ (by simpa using hi), List.getD_eq_getElem _ _ hi,
    List.getElem_map]

theorem getD_tail {α : Type} (l : List α) (i : ℕ) (d : α) :
    l.tail.getD i d = l.getD (i + 1) d := by
  cases l with
  | nil => rfl
  | cons a t => simp [List.getD]

theorem headD_eq_getD {α : Type} (l : List α) (d : α) : l.headD d = l.getD 0 d := by
  cases l <;> rfl

theorem genHigherStep_range'_head_aux (A B C D : Mtx R) (zf wf : Vec2 R) (k s : ℕ)
    (hs : 1 ≤ s) (p0 : Vec2 R × Vec2 R) :
    (((List.range' s k).foldl (genHigherStep A B C D zf wf) p0).1.getD 0 [] =
      p0.1.getD 0 [])
    ∧ (((List.range' s k).foldl (genHigherStep A B C D zf wf) p0).2.getD 0 [] =
      p0.2.getD 0 []) := by
  induction k generalizing s p0 with
  | zero => exact ⟨rfl, rfl⟩
  | succ k ih =>
    rw [List.range'_succ]
    have hstep1 : ((genHigherStep A B C D zf wf p0 s).1).getD 0 [] = p0.1.getD 0 [] := by
      show ((p0.1.set s _).getD 0 []) = p0.1.getD 0 []
      rw [List.getD_eq_getElem?_getD, List.getElem?_set_ne (by omega),
        ← List.getD_eq_getElem?_getD]
    have hstep2 : ((genHigherStep A B C D zf wf p0 s).2).getD 0 [] = p0.2.getD 0 [] := by
      show ((p0.2.set (s + 1) _).getD 0 []) = p0.2.getD 0 []
      rw [List.getD_eq_getElem?_getD, List.getElem?_set_ne (by omega),
        ← List.getD_eq_getElem?_getD]
    have hrec := ih (s + 1) (by omega) (genHigherStep A B C D zf wf p0 s)
    simp only [List.foldl_cons]
    exact ⟨hrec.1.trans hstep1, hrec.2.trans hstep2⟩

theorem genHigherStep_range'_head (A B C D : Mtx R) (zf wf : Vec2 R) (k : ℕ)
    (p0 : Vec2 R × Vec2 R) :
    (((List.range' 1 k).foldl (genHigherStep A B C D zf wf) p0).1.getD 0 [] =
      p0.1.getD 0 [])
    ∧ (((List.range' 1 k).foldl (genHigherStep A B C D zf wf) p0).2.getD 0 [] =
      p0.2.getD 0 []) :=
  genHigherStep_range'_head_aux A B C D zf wf k 1 le_rfl p0

theorem updCauses_length (lvls : List (GLevel R)) (xs zs : List (List R)) (vtop : List R) :
    (updCauses lvls xs zs vtop).length = lvls.length := by
  induction lvls generalizing xs zs with
  | nil => rfl
  | cons lvl rest ih => simp [updCauses, ih]

theorem updCauses_getD_length (lvls : List (GLevel R)) (xs zs : List (List R))
    (vtop : List R)
    (hg : ∀ lvl ∈ lvls, ∀ x v p, (lvl.g x v p).length = lvl.l)
    (hz : ∀ i, i < lvls.length → (zs.getD i []).length = (lvls.getD i GLevel.dflt).l) :
    ∀ i, i < lvls.length →
      ((updCauses lvls xs zs vtop).getD i []).length = (lvls.getD i GLevel.dflt).l := by
  induction lvls generalizing xs zs with
  | nil => intro i hi; simp at hi
  | cons lvl rest ih =>
    intro i hi
    cases i with
    | zero =>
      show ((updCauses (lvl :: rest) xs zs vtop).getD 0 []).length = lvl.l
      simp only [updCauses, List.getD_cons_zero]
      rw [vadd_length, hg lvl (by simp)]
      have hz0 := hz 0 (by simp)
      rw [headD_eq_getD]
      simp only [List.getD_cons_zero] at hz0
      omega
    | succ j =>
      simp only [updCauses, List.getD_cons_succ]
      have hzt : ∀ i, i < rest.length →
          (zs.tail.getD i []).length = (rest.getD i GLevel.dflt).l := by
        intro i hi'
        rw [getD_tail]
        have := hz (i + 1) (by simpa using hi')
        simpa using this
      have := ih xs.tail zs.tail (fun l hl => hg l (by simp [hl])) hzt j (by simpa using hi)
      simpa using this

theorem genStates_snd_length (cdx : List R → Mtx R → R → List R) (dt : R) (n : ℕ)
    (Ms : List (GLevel R)) (Z W : ℕ → List (Vec2 R)) (t : ℕ) :
    ((genStates cdx dt n Ms Z W t).2).length = n := by
  cases t with
  | zero =>
    show (genInitV n Ms).length = n
    simp [genInitV]
  | succ t =>
    show ((genStep cdx dt n Ms Z W _ _ t).vn).length = n
    show (unflatten n _ _).length = n
    exact unflatten_length _ _ _

theorem genStep_V_head (cdx : List R → Mtx R → R → List R) (dt : R) (n : ℕ)
    (Ms : List (GLevel R)) (Z W : ℕ → List (Vec2 R)) (xt vt : Vec2 R) (t : ℕ)
    (hvt : 0 < vt.length) :
    (genStep cdx dt n Ms Z W xt vt t).V.getD 0 [] =
      (updCauses Ms.dropLast (slices (Ms.map GLevel.n) (xt.headD []))
          ((Z t).map fun z => z.getD 0 [])
          (((Z t).map fun z => z.getD 0 []).getLastD [])
        ++ [((Z t).map fun z => z.getD 0 []).getLastD []]).flatten := by
  simp only [genStep]
  rw [(genHigherStep_range'_head _ _ _ _ _ _ _ _).1]
  rw [List.getD_eq_getElem?_getD, List.getElem?_set_self hvt]
  rfl

theorem genStep_X_head (cdx : List R → Mtx R → R → List R) (dt : R) (n : ℕ)
    (Ms : List (GLevel R)) (Z W : ℕ → List (Vec2 R)) (xt vt : Vec2 R) (t : ℕ) :
    (genStep cdx dt n Ms Z W xt vt t).X.getD 0 [] = xt.getD 0 [] := by
  simp only [genStep]
  rw [(genHigherStep_range'_head _ _ _ _ _ _ _ _).2]
  rw [List.getD_eq_getElem?_getD, List.getElem?_set_ne (by omega),
    ← List.getD_eq_getElem?_getD]

theorem generate_getD (cdx : List R → Mtx R → R → List R) (dt : R) (n : ℕ)
    (Ms : List (GLevel R)) (Z W : ℕ → List (Vec2 R)) (nT t : ℕ) (ht : t < nT) :
    (generate cdx dt n Ms Z W nT).1.getD t [] =
      (genStep cdx dt n Ms Z W (genStates cdx dt n Ms Z W t).1
        (genStates cdx dt n Ms Z W t).2 t).V
    ∧ (generate cdx dt n Ms Z W nT).2.getD t [] =
      (genStep cdx dt n Ms Z W (genStates cdx dt n Ms Z W t).1
        (genStates cdx dt n Ms Z W t).2 t).X := by
  constructor <;>
    · show (List.map _ (List.range nT)).getD t [] = _
      rw [List.getD_eq_getElem _ _ (by simpa using ht), List.getElem_map,
        List.getElem_range]

/-- C5 (amended): in the trajectories returned by `generate`, the order-0
state slice at the first timestep equals the concatenation of the levels'
declared initial states `x`; the declared initial causes, however, are
overwritten before `V[0]` is recorded: at every timestep, including the
first, slicing the recorded order-0 cause row by the per-level output
dimensions recovers, processing levels from coarsest to finest, the top
level's embedded drawn noise (with any `extra_input` folded into that
noise series before embedding) and, for every other level `i`, the
observation map evaluated at `(x_i, v_{i+1}, pE_i)` plus that level's
cause noise — the content of `updCauses`. -/
theorem C5_generate_initial_state_and_causes (cdx : List R → Mtx R → R → List R)
    (dt : R) (n : ℕ) (Ms : List (GLevel R)) (Z W : ℕ → List (Vec2 R)) (nT t : ℕ)
    (hn : 0 < n) (ht : t < nT) (hMne : Ms ≠ [])
    (hg : ∀ lvl ∈ Ms.dropLast, ∀ x v p, (lvl.g x v p).length = lvl.l)
    (hZlen : ∀ u, (Z u).length = Ms.length)
    (hz : ∀ u i, i < Ms.length →
      (((Z u).map fun zl => zl.getD 0 []).getD i []).length = (Ms.getD i GLevel.dflt).l) :
    ((generate cdx dt n Ms Z W nT).2.getD 0 []).getD 0 [] =
      ((Ms.filter fun m => 0 < m.n).map GLevel.x).flatten
    ∧ slices (Ms.map GLevel.l) (((generate cdx dt n Ms Z W nT).1.getD t []).getD 0 []) =
        updCauses Ms.dropLast
          (slices (Ms.map GLevel.n) ((genStates cdx dt n Ms Z W t).1.headD []))
          ((Z t).map fun zl => zl.getD 0 [])
          (((Z t).map fun zl => zl.getD 0 []).getLastD [])
        ++ [((Z t).map fun zl => zl.getD 0 []).getLastD []] := by
  have hlen : 0 < Ms.length := List.length_pos.mpr hMne
  constructor
  · rw [(generate_getD cdx dt n Ms Z W nT 0 (by omega)).2, genStep_X_head]
    show (genInitX n Ms).getD 0 [] = _
    rw [genInitX, List.getD_eq_getElem?_getD,
      List.getElem?_set_self (by simpa using hn)]
    rfl
  · rw [(generate_getD cdx dt n Ms Z W nT t ht).1,
      genStep_V_head cdx dt n Ms Z W _ _ t
        (by rw [genStates_snd_length]; exact hn)]
    apply slices_join
    · simp [updCauses_length, List.length_dropLast]
      omega
    · intro i hi
      simp only [List.length_map] at hi
      have hmapl : (Ms.map GLevel.l).getD i 0 = (Ms.getD i GLevel.dflt).l :=
        getD_map GLevel.l Ms i hi 0 GLevel.dflt
      by_cases hitop : i < Ms.length - 1
      · have hupd : i < (updCauses Ms.dropLast
            (slices (Ms.map GLevel.n) ((genStates cdx dt n Ms Z W t).1.headD []))
            ((Z t).map fun zl => zl.getD 0 [])
            (((Z t).map fun zl => zl.getD 0 []).getLastD [])).length := by
          rw [updCauses_length, List.length_dropLast]
          exact hitop
        rw [List.getD_append _ _ _ _ hupd]
        have hdrop : ∀ j, j < Ms.length - 1 →
            Ms.dropLast.getD j GLevel.dflt = Ms.getD j GLevel.dflt := by
          intro j hj
          rw [List.getD_eq_getElem?_getD, List.getD_eq_getElem?_getD,
            List.getElem?_dropLast]
          simp [hj]
        have hzdrop : ∀ j, j < Ms.dropLast.length →
            ((((Z t).map fun zl => zl.getD 0 []).getD j []).length =
              (Ms.dropLast.getD j GLevel.dflt).l) := by
          intro j hj
          rw [List.length_dropLast] at hj
          rw [hdrop j hj]
          exact hz t j (by omega)
        have := updCauses_getD_length Ms.dropLast
          (slices (Ms.map GLevel.n) ((genStates cdx dt n Ms Z W t).1.headD []))
          ((Z t).map fun zl => zl.getD 0 [])
          (((Z t).map fun zl => zl.getD 0 []).getLastD []) hg hzdrop i
          (by rw [List.length_dropLast]; exact hitop)
        rw [this, hdrop i hitop, hmapl]
      · have hieq : i = Ms.length - 1 := by omega
        have hupdlen : (updCauses Ms.dropLast
            (slices (Ms.map GLevel.n) ((genStates cdx dt n Ms Z W t).1.headD []))
            ((Z t).map fun zl => zl.getD 0 [])
            (((Z t).map fun zl => zl.getD 0 []).getLastD [])).length = Ms.length - 1 := by
          rw [updCauses_length, List.length_dropLast]
        rw [List.getD_eq_getElem?_getD, List.getElem?_append_right (by omega), hupdlen,
          hieq]
        simp only [Nat.sub_self]
        have hzmaplen : ((Z t).map fun zl => zl.getD 0 []).length = Ms.length := by
          rw [List.length_map, hZlen t]
        have hlastD : (((Z t).map fun zl => zl.getD 0 []).getLastD []) =
            (((Z t).map fun zl => zl.getD 0 []).getD (Ms.length - 1) []) := by
          rw [show ∀ l : List (List R), l.getLastD [] = l.getLast?.getD [] from
              fun l => by cases l with
                | nil => rfl
                | cons a t' => rw [List.getLastD_eq_getLast?],
            List.getLast?_eq_getElem?, List.getD_eq_getElem?_getD, hzmaplen]
        show (((Z t).map fun zl => zl.getD 0 []).getLastD []).length =
          (Ms.map GLevel.l).getD (Ms.length - 1) 0
        rw [hlastD, hz t (Ms.length - 1) (by omega),
          getD_map GLevel.l Ms (Ms.length - 1) (by omega) 0 GLevel.dflt]

/-- C4 witness: the trace properties instantiated at a concrete
two-iteration run. -/
theorem C4_witness :
    (outerLoop
      (⟨fun _ => 0, fun _ => 0, fun _ _ h => h, fun _ q => q, fun _ => false⟩ :
        Oracles ℚ ℚ ℚ)
      (initState 2 8 1 (0 : ℚ) (0 : ℚ) (0 : ℚ)) 0
      (if (0 : ℕ) = 0 ∧ (1 : ℕ) = 0 then 1 else 2)).F.length = 2
    ∧ (outerLoop
      (⟨fun _ => 0, fun _ => 0, fun _ _ h => h, fun _ q => q, fun _ => false⟩ :
        Oracles ℚ ℚ ℚ)
      (initState 2 8 1 (0 : ℚ) (0 : ℚ) (0 : ℚ)) 0
      (if (0 : ℕ) = 0 ∧ (1 : ℕ) = 0 then 1 else 2)).A.length = 2 :=
  ⟨(C4_trace_lengths_sentinels_monotone _ 2 8 1 0 0 0 0).1,
    (C4_trace_lengths_sentinels_monotone _ 2 8 1 0 0 0 0).2.1⟩

/-- C5 counterexample: a two-level hierarchy with declared initial causes
`v = [3]` (level 0) and `v = [7]` (top), observation map constantly `[5]`
and zero innovations.  The returned cause trajectory has order-0 slice
`[5, 0]` at the first timestep — level 0's cause was overwritten with
`g(x, v_top) + z = 5` and the top cause with its noise `0` — not the
declared `[3, 7]`: the claim that the order-0 slice at the first
timestep equals each level's declared initial cause `v` is false.  (The
integrator argument is irrelevant to `V[0]`, which is recorded before
the first integration step; it is instantiated with a stub.) -/
theorem C5_counterexample :
    let lvl0 : GLevel ℤ :=
      { n := 1, l := 1, x := [4], v := [3], pE := [],
        f := fun _ _ _ => [0], g := fun _ _ _ => [5],
        df := fun _ _ _ => DBundle.zero, dg := fun _ _ _ => DBundle.zero }
    let top : GLevel ℤ :=
      { n := 0, l := 1, x := [], v := [7], pE := [],
        f := fun _ _ _ => [], g := fun _ _ _ => [],
        df := fun _ _ _ => DBundle.zero, dg := fun _ _ _ => DBundle.zero }
    (((generate (fun _ _ _ => []) 1 3 [lvl0, top]
        (fun _ => [List.replicate 3 [0], List.replicate 3 [0]])
        (fun _ => [List.replicate 3 [0], List.replicate 3 []]) 1).1.getD 0 []).getD 0 [])
      = [5, 0]
    ∧ (([lvl0, top].filter fun m => 0 < m.l).map GLevel.v).flatten = [3, 7]
    ∧ ([5, 0] : List ℤ) ≠ [3, 7] := by
  exact ⟨rfl, rfl, by decide⟩

/-- C5 witness: the amended statement instantiated at the concrete
two-level hierarchy of the counterexample, with every shape hypothesis
discharged. -/
theorem C5_witness :
    let lvl0 : GLevel ℤ :=
      { n := 1, l := 1, x := [4], v := [3], pE := [],
        f := fun _ _ _ => [0], g := fun _ _ _ => [5],
        df := fun _ _ _ => DBundle.zero, dg := fun _ _ _ => DBundle.zero }
    let top : GLevel ℤ :=
      { n := 0, l := 1, x := [], v := [7], pE := [],
        f := fun _ _ _ => [], g := fun _ _ _ => [],
        df := fun _ _ _ => DBundle.zero, dg := fun _ _ _ => DBundle.zero }
    ((generate (fun _ _ _ => []) 1 3 [lvl0, top]
        (fun _ => [List.replicate 3 [0], List.replicate 3 [0]])
        (fun _ => [List.replicate 3 [0], List.replicate 3 []]) 1).2.getD 0 []).getD 0 []
      = (([lvl0, top].filter fun m => 0 < m.n).map GLevel.x).flatten
    ∧ slices ([lvl0, top].map GLevel.l)
        (((generate (fun _ _ _ => []) 1 3 [lvl0, top]
          (fun _ => [List.replicate 3 [0], List.replicate 3 [0]])
          (fun _ => [List.replicate 3 [0], List.replicate 3 []]) 1).1.getD 0 []).getD 0 []) =
        updCauses [lvl0, top].dropLast
          (slices ([lvl0, top].map GLevel.n)
            ((genStates (fun _ _ _ => []) 1 3 [lvl0, top]
              (fun _ => [List.replicate 3 [0], List.replicate 3 [0]])
              (fun _ => [List.replicate 3 [0], List.replicate 3 []]) 0).1.headD []))
          (((fun (_ : ℕ) => [List.replicate 3 [(0 : ℤ)], List.replicate 3 [0]]) 0).map
            fun zl => zl.getD 0 [])
          ((((fun (_ : ℕ) => [List.replicate 3 [(0 : ℤ)], List.replicate 3 [0]]) 0).map
            fun zl => zl.getD 0 []).getLastD [])
        ++ [(((fun (_ : ℕ) => [List.replicate 3 [(0 : ℤ)], List.replicate 3 [0]]) 0).map
            fun zl => zl.getD 0 []).getLastD []] := by
  intro lvl0 top
  exact C5_generate_initial_state_and_causes (fun _ _ _ => []) 1 3 [lvl0, top]
    (fun _ => [List.replicate 3 [0], List.replicate 3 [0]])
    (fun _ => [List.replicate 3 [0], List.replicate 3 []]) 1 0
    (by omega) (by omega) (by simp)
    (by
      intro lvl hl x v p
      simp at hl
      subst hl
      rfl)
    (fun u => rfl)
    (by
      intro u i hi
      rcases i with _ | _ | i
      · rfl
      · rfl
      · simp only [List.length_cons, List.length_nil] at hi
        omega)

theorem evalBundles_length (L : List (DLevel R)) (x v : List R) (qs : List (List R)) :
    (evalBundles L x v qs).length = L.length := by
  induction L generalizing x v qs with
  | nil => rfl
  | cons lvl rest ih => simp [evalBundles, ih]

theorem evalFG_f_lengths (L : List (DLevel R)) (x v : List R) (Us : List (Mtx R))
    (qs : List (List R)) (hf : ∀ lvl ∈ L, ∀ a b c, (lvl.f a b c).length = lvl.n) :
    (evalFG L x v Us qs).1.map List.length = L.map DLevel.n := by
  induction L generalizing x v Us qs with
  | nil => rfl
  | cons lvl rest ih =>
    simp only [evalFG, List.map_cons, List.cons.injEq]
    exact ⟨hf lvl (by simp) _ _ _, ih _ _ _ _ fun l hl => hf l (by simp [hl])⟩

theorem evalFG_g_lengths (L : List (DLevel R)) (x v : List R) (Us : List (Mtx R))
    (qs : List (List R)) (hg : ∀ lvl ∈ L, ∀ a b c, (lvl.g a b c).length = lvl.l) :
    (evalFG L x v Us qs).2.map List.length = L.map DLevel.l := by
  induction L generalizing x v Us qs with
  | nil => rfl
  | cons lvl rest ih =>
    simp only [evalFG, List.map_cons, List.cons.injEq]
    exact ⟨hg lvl (by simp) _ _ _, ih _ _ _ _ fun l hl => hg l (by simp [hl])⟩

theorem map_rows_zipWith_mk {β : Type} (L : List (DLevel R)) (bs : List β)
    (hlen : bs.length = L.length) (r c : DLevel R → ℕ) (ent : DLevel R → β → ℕ → ℕ → R) :
    (List.zipWith (fun lvl b => Mtx.mk (r lvl) (c lvl) (ent lvl b)) L bs).map Mtx.rows
      = L.map r := by
  induction L generalizing bs with
  | nil => simp
  | cons lvl rest ih =>
    cases bs with
    | nil => simp at hlen
    | cons b bs' =>
      simp only [List.zipWith_cons_cons, List.map_cons]
      rw [ih bs' (by simpa using hlen)]

theorem range_map_getD {α : Type} (l : List α) (d : α) :
    (List.range l.length).map (fun i => l.getD i d) = l := by
  apply List.ext_getElem
  · simp
  · intro i h1 h2
    simp only [List.getElem_map, List.getElem_range]
    exact List.getD_eq_getElem l d h2

theorem getLastD_eq_getLast?_getD {α : Type} (l : List α) (d : α) :
    l.getLastD d = l.getLast?.getD d := by
  cases l with
  | nil => rfl
  | cons a t => rw [List.getLastD_eq_getLast?]

theorem ncOf_eq_getLast (M : List (DLevel R)) (hM : M ≠ []) :
    ncOf M = (M.getLast hM).l := by
  rw [ncOf, getLastD_eq_getLast?_getD, List.getLast?_map,
    List.getLast?_eq_getLast M hM]
  rfl

theorem sum_dropLast_add_last (f : DLevel R → ℕ) (M : List (DLevel R)) (hM : M ≠ []) :
    (M.dropLast.map f).sum + f (M.getLast hM) = (M.map f).sum := by
  conv_rhs => rw [← List.dropLast_append_getLast hM]
  simp

theorem gStack_length (M : List (DLevel R)) (qu : QU R) (qp : QP R)
    (hg : ∀ lvl ∈ M.dropLast, ∀ a b c, (lvl.g a b c).length = lvl.l) :
    (gStack M qu qp).length = (M.dropLast.map DLevel.l).sum := by
  rw [gStack, List.length_flatten, evalFG_g_lengths _ _ _ _ _ hg]

theorem fStack_length (M : List (DLevel R)) (qu : QU R) (qp : QP R)
    (hf : ∀ lvl ∈ M.dropLast, ∀ a b c, (lvl.f a b c).length = lvl.n) :
    (fStack M qu qp).length = (M.dropLast.map DLevel.n).sum := by
  rw [fStack, List.length_flatten, evalFG_f_lengths _ _ _ _ _ hf]

theorem dgdxM_rows (M : List (DLevel R)) (qu : QU R) (qp : QP R) (hM : M ≠ []) :
    (dgdxM M qu qp).rows = neOf M := by
  show (blockDiagM _).rows + ncOf M = neOf M
  rw [blockDiagM_rows, map_rows_zipWith_mk _ _
    (by rw [evalBundles_length]) _ _ _]
  rw [ncOf_eq_getLast M hM]
  exact sum_dropLast_add_last DLevel.l M hM

theorem vcatList_grid_rows (w : ℕ) (rd : List ℕ) (cells : ℕ → List (Mtx R)) :
    (vcatList w ((List.range rd.length).map fun i =>
      hcatList (rd.getD i 0) (cells i))).rows = rd.sum := by
  rw [vcatList_rows, List.map_map]
  have hfun : (Mtx.rows ∘ fun i => hcatList (rd.getD i 0) (cells i)) =
      fun i => rd.getD i 0 := by
    funext i
    exact hcatList_rows _ _
  rw [hfun, range_map_getD]

theorem dgdvM_rows (M : List (DLevel R)) (dgs : List (DBundle R)) :
    (dgdvM M dgs).rows = (M.map DLevel.l).sum := by
  unfold dgdvM
  dsimp only
  rw [show M.length = (M.map DLevel.l).length from (List.length_map M DLevel.l).symm]
  exact vcatList_grid_rows _ _ _

theorem dgdvFullM_rows (M : List (DLevel R)) (qu : QU R) (qp : QP R) :
    (dgdvFullM M qu qp).rows = neOf M := by
  unfold dgdvFullM
  exact dgdvM_rows M _

theorem dfdxM_rows (M : List (DLevel R)) (qu : QU R) (qp : QP R) (hM : M ≠ [])
    (hlastn : (M.getLast hM).n = 0) : (dfdxM M qu qp).rows = nxOf M := by
  rw [dfdxM, blockDiagM_rows, map_rows_zipWith_mk _ _ (by rw [evalBundles_length]) _ _ _]
  have := sum_dropLast_add_last DLevel.n M hM
  rw [hlastn] at this
  simpa using this

theorem dfdvM_rows (M : List (DLevel R)) (qu : QU R) (qp : QP R) (hM : M ≠ [])
    (hlastn : (M.getLast hM).n = 0) : (dfdvM M qu qp).rows = nxOf M := by
  rw [dfdvM, blockDiagM_rows, map_rows_zipWith_mk _ _ (by rw [evalBundles_length]) _ _ _]
  have := sum_dropLast_add_last DLevel.n M hM
  rw [hlastn] at this
  simpa using this

theorem EvBlock_length (M : List (DLevel R)) (qu : QU R) (qp : QP R) (hM : M ≠ [])
    (i : ℕ) :
    (EvBlock M qu qp i).length = neOf M := by
  rw [EvBlock, vsub_length, vsub_length, vadd_length, matVec_length, matVec_length,
    matVec_length, matVec_length, dgdxM_rows M qu qp hM, dgdvFullM_rows]
  show min (min (min (eyeM (neOf M) (nyOf M) : Mtx R).rows _) _) _ = _
  simp [eyeM, dedcM]

theorem ExBlock_length (M : List (DLevel R)) (qu : QU R) (qp : QP R) (hM : M ≠ [])
    (hlastn : (M.getLast hM).n = 0) (hx : ∀ i, (qu.x i).length = nxOf M) (i : ℕ) :
    (ExBlock M qu qp i).length = nxOf M := by
  rw [ExBlock, vsub_length, vsub_length, matVec_length, matVec_length,
    dfdxM_rows M qu qp hM hlastn, dfdvM_rows M qu qp hM hlastn, hx]
  simp

/-- C1: for every prepared hierarchy (non-empty, terminal level with
`n = m = 0`), embedding orders `n ≥ 3` (the engine's totality domain,
cf. the `n = 2` failure of C10) and `d`, and state estimate `qu` and
parameter deviation `qp` meeting the engine's shape preconditions, the
generalized prediction-error vector `E` returned by `dem_eval_err_diff`
has order-0 causal block (first `ne` entries) equal to
`[y0, v0] - [g, u0]`, order-0 state block (entries `n*ne .. n*ne + nx`)
equal to `x1 - f` — with `f`, `g` the stacked per-level state and
observation maps at the order-0 states and causes with parameters
`pE_i + U_i @ qp.p_i` (`fStack`/`gStack`) — and its highest-order
(`n-1`) state block (the final `nx` entries) identically zero. -/
theorem C1_eval_err_diff_blocks (n d : ℕ) (M : List (DLevel R)) (qu : QU R) (qp : QP R)
    (hM : M ≠ []) (hn : 3 ≤ n)
    (hlastn : (M.getLast hM).n = 0)
    (hx : ∀ i, (qu.x i).length = nxOf M)
    (hv : ∀ i, (qu.v i).length = nvOf M)
    (hy : ∀ i, (qu.y i).length = nyOf M)
    (hu : ∀ i, (qu.u i).length = ncOf M)
    (hf : ∀ lvl ∈ M.dropLast, ∀ a b c, (lvl.f a b c).length = lvl.n)
    (hg : ∀ lvl ∈ M.dropLast, ∀ a b c, (lvl.g a b c).length = lvl.l)
    (hchain : nyOf M + nvOf M = neOf M) :
    ∃ E, dem_eval_err_diff n d M qu qp = .ok E
      ∧ E.take (neOf M) = vsub (qu.y 0 ++ qu.v 0) (gStack M qu qp ++ qu.u 0)
      ∧ (E.drop (n * neOf M)).take (nxOf M) = vsub (qu.x 1) (fStack M qu qp)
      ∧ E.drop (n * neOf M + (n - 1) * nxOf M) = List.replicate (nxOf M) 0 := by
  have hmidne : (List.range' 1 (n - 2)).map (ExBlock M qu qp) ≠ [] := by
    apply List.length_pos.mp
    rw [List.length_map, List.length_range']
    omega
  have hgetlast : ((List.range' 1 (n - 2)).map (ExBlock M qu qp)).getLast? =
      some (((List.range' 1 (n - 2)).map (ExBlock M qu qp)).getLast hmidne) :=
    List.getLast?_eq_getLast _ hmidne
  have hlastlen : (((List.range' 1 (n - 2)).map (ExBlock M qu qp)).getLast hmidne).length
      = nxOf M := by
    have hmem := List.getLast_mem hmidne
    obtain ⟨i, -, hieq⟩ := List.mem_map.mp hmem
    rw [← hieq]
    exact ExBlock_length M qu qp hM hlastn hx i
  have hEv0len : (vsub (qu.y 0 ++ qu.v 0) (gStack M qu qp ++ qu.u 0)).length = neOf M := by
    rw [vsub_length, List.length_append, List.length_append, hy 0, hu 0,
      gStack_length M qu qp hg]
    have hvlen : (qu.v 0).length = nvOf M := hv 0
    rw [hvlen, hchain]
    have : (M.dropLast.map DLevel.l).sum + ncOf M = neOf M := by
      rw [ncOf_eq_getLast M hM]
      exact sum_dropLast_add_last DLevel.l M hM
    rw [this]
    simp
  have hEx0len : (vsub (qu.x 1) (fStack M qu qp)).length = nxOf M := by
    rw [vsub_length, hx 1, fStack_length M qu qp hf]
    have := sum_dropLast_add_last DLevel.n M hM
    rw [hlastn] at this
    simp only [Nat.add_zero] at this
    rw [this]
    simp [nxOf]
  have hEvlen : ((vsub (qu.y 0 ++ qu.v 0) (gStack M qu qp ++ qu.u 0) ::
      (List.range' 1 (n - 1)).map (EvBlock M qu qp)).flatten).length = n * neOf M := by
    rw [flatten_length_const (k := neOf M) ?hblocks]
    · simp [List.length_range']
      omega
    case hblocks =>
      intro b hb
      rcases List.mem_cons.mp hb with hb0 | hbm
      · rw [hb0]; exact hEv0len
      · obtain ⟨i, -, hieq⟩ := List.mem_map.mp hbm
        rw [← hieq]
        exact EvBlock_length M qu qp hM i
  have hExMidlen : (((List.range' 1 (n - 2)).map (ExBlock M qu qp)).flatten).length =
      (n - 2) * nxOf M := by
    rw [flatten_length_const (k := nxOf M) ?hbx]
    · simp [List.length_range']
    case hbx =>
      intro b hb
      obtain ⟨i, -, hieq⟩ := List.mem_map.mp hb
      rw [← hieq]
      exact ExBlock_length M qu qp hM hlastn hx i
  refine ⟨_, by simp only [dem_eval_err_diff]; rw [hgetlast], ?_, ?_, ?_⟩
  · rw [List.flatten_cons, List.append_assoc, List.take_left' hEv0len]
  · rw [List.drop_left' hEvlen, List.flatten_append, List.flatten_cons,
      List.append_assoc, List.take_left' hEx0len]
  · have hfirst : ((vsub (qu.x 1) (fStack M qu qp) ::
        (List.range' 1 (n - 2)).map (ExBlock M qu qp)).flatten).length =
        (n - 1) * nxOf M := by
      rw [List.flatten_cons, List.length_append, hEx0len, hExMidlen]
      have h3 : 1 + (n - 2) = n - 1 := by omega
      calc nxOf M + (n - 2) * nxOf M = (1 + (n - 2)) * nxOf M := by ring
        _ = (n - 1) * nxOf M := by rw [h3]
    rw [← List.drop_drop, List.drop_left' hEvlen, List.flatten_append,
      List.drop_left' hfirst]
    simp only [zerosLike, hlastlen, List.flatten_cons, List.flatten_nil,
      List.append_nil]

/-- C1 witness: the block structure of the prediction-error vector,
instantiated at a concrete two-level hierarchy (one dynamic level plus
the flat-prior terminal level) with `n = d = 3`, every shape hypothesis
discharged. -/
theorem C1_witness :
    let lvl0 : DLevel ℤ :=
      { n := 1, m := 1, l := 1, p := 0, f := fun _ _ _ => [2], g := fun _ _ _ => [3],
        pE := [], df_qup := fun _ _ _ => DBundle.zero,
        dg_qup := fun _ _ _ => DBundle.zero }
    let top : DLevel ℤ :=
      { n := 0, m := 0, l := 1, p := 0, f := fun _ _ _ => [], g := fun _ _ _ => [],
        pE := [], df_qup := fun _ _ _ => DBundle.zero,
        dg_qup := fun _ _ _ => DBundle.zero }
    let qu : QU ℤ := ⟨fun _ => [1], fun _ => [4], fun _ => [6], fun _ => [8]⟩
    let qp : QP ℤ := ⟨[], []⟩
    (dem_eval_err_diff 3 3 [lvl0, top] qu qp).isOk = true
    ∧ ((dem_eval_err_diff 3 3 [lvl0, top] qu qp).toOption.getD []).take
        (neOf [lvl0, top]) =
      vsub (qu.y 0 ++ qu.v 0) (gStack [lvl0, top] qu qp ++ qu.u 0)
    ∧ (((dem_eval_err_diff 3 3 [lvl0, top] qu qp).toOption.getD []).drop
        (3 * neOf [lvl0, top])).take (nxOf [lvl0, top]) =
      vsub (qu.x 1) (fStack [lvl0, top] qu qp)
    ∧ ((dem_eval_err_diff 3 3 [lvl0, top] qu qp).toOption.getD []).drop
        (3 * neOf [lvl0, top] + (3 - 1) * nxOf [lvl0, top]) =
      List.replicate (nxOf [lvl0, top]) 0 := by
  intro lvl0 top qu qp
  obtain ⟨E, hok, h1, h2, h3⟩ := C1_eval_err_diff_blocks 3 3 [lvl0, top] qu qp
    (by simp) (by omega) rfl
    (fun i => rfl) (fun i => rfl) (fun i => rfl) (fun i => rfl)
    (by
      intro lvl hl a b c
      simp at hl
      subst hl
      rfl)
    (by
      intro lvl hl a b c
      simp at hl
      subst hl
      rfl)
    (by decide)
  rw [hok]
  exact ⟨rfl, h1, h2, h3⟩

end Dempy
